import Mathlib

/-!
Verification development for the `blender_robotics` Blender add-on scripts.

The Python sources are shallowly embedded in Lean:

* `dual_joint_trajectory_replay_addon.py` — trajectory parsing
  (`parse_single_arm`), sampling (`sample_q`), the union time range
  (`_global_time_range`), the scrub-to-time mapping
  (`apply_pose_from_scrub`), the load operators, and the TCP point
  extraction (`_parse_tcp_positions` plus the visualize operators).
* `export_objects_to_moveit_scene.py` — the `.scene` exporter.
* `import_objects_from_moveit_scene.py` — the `.scene` importer
  (`_parse_scene_file`, `_unique_name`, `_spawn_cube_unique`).

Python floats are modelled as rationals (`ℚ`); all numeric literals of the
source (`1e-12`, `0.001`, `1e-9`, `0.281`, `.6f` rounding) are carried over
exactly.  String-level tokenisation (`str.split`, `float(...)`, `strip`,
`startswith`) is abstracted: a file line is carried as a `FileLine` record
holding the outcomes of those library calls (blank/comment classification,
the token list with each token either numeric or not, and the raw text used
in error messages).  Host-editor side effects (rig assignment, object and
collection creation) are outside the model; the functions below compute the
values the source hands to those host calls.
-/

/-- Tolerance `1e-12` used by the source for time dedup and degenerate
interpolation intervals. -/
def eps12 : ℚ := mkRat 1 1000000000000

/-- Fallback minimum duration `1e-9` used by `apply_pose_from_scrub`. -/
def eps9 : ℚ := mkRat 1 1000000000

/-- A pose: the 7 joint positions of one sample row (`vals[1:8]`). -/
abbrev Pose := List ℚ

/-- One whitespace/comma/tab-separated field of a data line: either a token
`float(...)` accepts (carrying its value) or one it rejects. -/
inductive FTok where
  | num (v : ℚ)
  | bad (s : String)
deriving DecidableEq

/-- One physical line of an input file, abstracted to the outcomes of the
string operations the source applies to it: `blank` is `not line.strip()`,
`comment` is `line.strip().startswith("#")`, `tokens` is the delimiter
split of the stripped line, `raw` is the original text used in the
non-numeric error message. -/
structure FileLine where
  raw : String
  blank : Bool
  comment : Bool
  tokens : List FTok
deriving DecidableEq

/-- The `RuntimeError`s raised by `parse_single_arm` and
`_parse_tcp_positions`, with the data interpolated into each message:
`nonNumericLine` carries the offending line, `fieldCount` the actual
field count, `noRows` is the "No valid data rows found." case. -/
inductive ParseErr where
  | nonNumericLine (raw : String)
  | fieldCount (n : Nat)
  | noRows
deriving DecidableEq

/-- Models `[float(x) for x in parts]`: all tokens numeric yields the value
list, any rejected token aborts the whole comprehension. -/
def toVals : List FTok → Option (List ℚ)
  | [] => some []
  | FTok.num v :: rest => (toVals rest).map (fun vs => v :: vs)
  | FTok.bad _ :: _ => none

/-- The values of a line, defaulting to `[]`; only used where the line is
known to be numeric. -/
def lineVals (L : FileLine) : List ℚ := (toVals L.tokens).getD []

/-- The `(t, qpos)` row built from a valid value list:
`t = vals[0] * (0.001 if ms else 1.0)`, `qpos = vals[1:8]`, optionally
mapped through `math.radians` (an external real-valued conversion, passed
in abstractly as `radians`). -/
def rowOf (time_unit_ms degrees : Bool) (radians : ℚ → ℚ) (vals : List ℚ) :
    ℚ × Pose :=
  (vals.headD 0 * (if time_unit_ms then mkRat 1 1000 else 1),
   if degrees then ((vals.drop 1).take 7).map radians else (vals.drop 1).take 7)

/-- The line loop of `parse_single_arm` (lines 72–94 of the source): skip
blank/comment lines, skip the first surviving line when `hdr` is still
pending, convert each remaining line, failing fast on a non-numeric token
or on fewer than 15 fields.  The collected rows are in file order. -/
def collectRows (tums hdr degrees : Bool) (radians : ℚ → ℚ) :
    List FileLine → Except ParseErr (List (ℚ × Pose))
  | [] => Except.ok []
  | L :: rest =>
    if L.blank || L.comment then collectRows tums hdr degrees radians rest
    else if hdr then collectRows tums false degrees radians rest
    else
      match toVals L.tokens with
      | none => Except.error (ParseErr.nonNumericLine L.raw)
      | some vals =>
        if vals.length < 15 then Except.error (ParseErr.fieldCount vals.length)
        else (collectRows tums hdr degrees radians rest).map
          (fun tail => rowOf tums degrees radians vals :: tail)

/-- The data lines of an input: what survives blank/comment stripping and
the optional header skip.  Mirrors the skipping logic of `collectRows`. -/
def dataLines (hdr : Bool) : List FileLine → List FileLine
  | [] => []
  | L :: rest =>
    if L.blank || L.comment then dataLines hdr rest
    else if hdr then dataLines false rest
    else L :: dataLines hdr rest

/-- A data line is valid for `parse_single_arm` when it is all numeric with
at least 15 fields. -/
def validLine (L : FileLine) : Bool :=
  match toVals L.tokens with
  | none => false
  | some vs => decide (15 ≤ vs.length)

/-- A fully numeric data line, for concrete test inputs. -/
def numRow (vs : List ℚ) : FileLine :=
  { raw := "", blank := false, comment := false, tokens := vs.map FTok.num }

/-- A concrete trajectory row: time `t`, all seven positions equal to `p`,
all seven velocities zero. -/
def sampleRow (t p : ℚ) : FileLine :=
  numRow (t :: (List.replicate 7 p ++ List.replicate 7 0))

/-- Stable insertion by time: models one step of Python's stable
`sorted(pairs, key=lambda x: x[0])`. -/
def insertByTime (x : ℚ × Pose) : List (ℚ × Pose) → List (ℚ × Pose)
  | [] => [x]
  | y :: ys => if y.1 < x.1 then y :: insertByTime x ys else x :: y :: ys

/-- Stable sort by time ascending (insertion sort), modelling Python's
stable `sorted` with the time key. -/
def sortByTime : List (ℚ × Pose) → List (ℚ × Pose)
  | [] => []
  | x :: xs => insertByTime x (sortByTime xs)

/-- The dedup loop of `parse_single_arm` (lines 100–105): `cur` is the
currently open last entry; a following pair within `1e-12` of it replaces
it (time and pose), otherwise `cur` is committed. -/
def dedupRun : (ℚ × Pose) → List (ℚ × Pose) → List (ℚ × Pose)
  | cur, [] => [cur]
  | cur, x :: rest =>
    if |x.1 - cur.1| < eps12 then dedupRun x rest else cur :: dedupRun x rest

/-- Collapse of adjacent near-equal times over a whole pair list. -/
def dedup : List (ℚ × Pose) → List (ℚ × Pose)
  | [] => []
  | x :: rest => dedupRun x rest

/-- The trajectory dictionary `{'t': times, 'q': joints}`. -/
structure Traj where
  t : List ℚ
  q : List Pose
deriving DecidableEq

/-- Split a pair list into the separate `times`/`joints` lists the source
keeps. -/
def unzipPairs (l : List (ℚ × Pose)) : Traj :=
  { t := l.map Prod.fst, q := l.map Prod.snd }

/-- `parse_single_arm` (lines 67–106): collect rows, fail when none remain,
then stable-sort by time and collapse near-duplicate times. -/
def parse_single_arm (tums hdr degrees : Bool) (radians : ℚ → ℚ)
    (lines : List FileLine) : Except ParseErr Traj :=
  match collectRows tums hdr degrees radians lines with
  | Except.error e => Except.error e
  | Except.ok rows =>
    if rows.isEmpty then Except.error ParseErr.noRows
    else Except.ok (unzipPairs (dedup (sortByTime rows)))

/-- Python's `bisect.bisect_left` on a sorted list, modelled by its
documented contract: the leftmost insertion point, i.e. the length of the
maximal prefix of elements `< x`. -/
def bisect_left (l : List ℚ) (x : ℚ) : Nat :=
  (l.takeWhile (fun y => decide (y < x))).length

/-- `sample_q` (lines 108–116).  List indexing (`ts[0]`, `ts[-1]`,
`ts[i]`) is total in Python only on non-empty input; the model totalises
it with defaults, which are never reached under the trajectory
invariants. -/
def sample_q (traj : Traj) (t : ℚ) : Pose :=
  let ts := traj.t
  let qs := traj.q
  if t ≤ ts.headD 0 then qs.headD []
  else if ts.getLastD 0 ≤ t then qs.getLastD []
  else
    let i := bisect_left ts t
    let t0 := ts.getD (i - 1) 0
    let t1 := ts.getD i 0
    let q0 := qs.getD (i - 1) []
    let q1 := qs.getD i []
    if t1 ≤ t0 + eps12 then q1
    else
      let r := (t - t0) / (t1 - t0)
      List.zipWith (fun a b => (1 - r) * a + r * b) q0 q1

/-- The process-wide trajectory slots `TRAJ_A` / `TRAJ_B`. -/
structure ReplayState where
  trajA : Option Traj
  trajB : Option Traj
deriving DecidableEq

/-- `_global_time_range` (lines 60–65): first/last times of each loaded
trajectory, min of the firsts and max of the lasts, with fallback
`(0, 1)` when nothing is loaded. -/
def global_time_range (st : ReplayState) : ℚ × ℚ :=
  match st.trajA, st.trajB with
  | none, none => (0, 1)
  | some a, none => (a.t.headD 0, a.t.getLastD 0)
  | none, some b => (b.t.headD 0, b.t.getLastD 0)
  | some a, some b =>
    (min (a.t.headD 0) (b.t.headD 0), max (a.t.getLastD 0) (b.t.getLastD 0))

/-- The absolute time computed by `apply_pose_from_scrub` (lines 120–122):
`duration = max(t1 - t0, 1e-9)` and `t = t0 + scrub * duration`. -/
def scrub_time (st : ReplayState) (f : ℚ) : ℚ :=
  let r := global_time_range st
  r.1 + f * max (r.2 - r.1) eps9

/-- The per-arm poses `apply_pose_from_scrub` samples and hands to the rig
(lines 126–138); the rig assignment itself is a host side effect outside
the model. -/
def apply_pose_from_scrub (st : ReplayState) (f : ℚ) :
    Option Pose × Option Pose :=
  let t := scrub_time st f
  (st.trajA.map (fun a => sample_q a t), st.trajB.map (fun b => sample_q b t))

/-- Operator return statuses `{'FINISHED'}` / `{'CANCELLED'}`. -/
inductive OpStatus where
  | finished
  | cancelled
deriving DecidableEq

/-- `SA_OT_load_a.execute` (lines 304–319) restricted to the trajectory
state: a parse failure reports the error and leaves both slots untouched,
success replaces slot A wholesale. -/
def load_a_execute (tums hdr degrees : Bool) (radians : ℚ → ℚ)
    (lines : List FileLine) (st : ReplayState) : ReplayState × OpStatus :=
  match parse_single_arm tums hdr degrees radians lines with
  | Except.error _ => (st, OpStatus.cancelled)
  | Except.ok tr => ({ st with trajA := some tr }, OpStatus.finished)

/-- `SA_OT_load_b.execute` (lines 325–340), symmetric to arm A. -/
def load_b_execute (tums hdr degrees : Bool) (radians : ℚ → ℚ)
    (lines : List FileLine) (st : ReplayState) : ReplayState × OpStatus :=
  match parse_single_arm tums hdr degrees radians lines with
  | Except.error _ => (st, OpStatus.cancelled)
  | Except.ok tr => ({ st with trajB := some tr }, OpStatus.finished)

/-- The per-row point of `_parse_tcp_positions` (lines 194–201): the 16
trailing fields are the flattened 4x4; the translation offsets depend on
the matrix order, and `y_offset` is added to the second component. -/
def tcp_row_point (column_major : Bool) (y_offset : ℚ) (vals : List ℚ) :
    ℚ × ℚ × ℚ :=
  let m := (vals.drop 1).take 16
  if column_major then (m.getD 12 0, m.getD 13 0 + y_offset, m.getD 14 0)
  else (m.getD 3 0, m.getD 7 0 + y_offset, m.getD 11 0)

/-- The line loop of `_parse_tcp_positions` (lines 176–201): same
skipping/validation structure as `collectRows`, requiring at least 17
fields per row. -/
def tcpRows (hdr column_major : Bool) (y_offset : ℚ) :
    List FileLine → Except ParseErr (List (ℚ × ℚ × ℚ))
  | [] => Except.ok []
  | L :: rest =>
    if L.blank || L.comment then tcpRows hdr column_major y_offset rest
    else if hdr then tcpRows false column_major y_offset rest
    else
      match toVals L.tokens with
      | none => Except.error (ParseErr.nonNumericLine L.raw)
      | some vals =>
        if vals.length < 17 then Except.error (ParseErr.fieldCount vals.length)
        else (tcpRows hdr column_major y_offset rest).map
          (fun tail => tcp_row_point column_major y_offset vals :: tail)

/-- `_parse_tcp_positions` (lines 170–204): the row loop plus the
"No valid TCP rows found." check. -/
def parse_tcp_positions (hdr column_major : Bool) (y_offset : ℚ)
    (lines : List FileLine) : Except ParseErr (List (ℚ × ℚ × ℚ)) :=
  match tcpRows hdr column_major y_offset lines with
  | Except.error e => Except.error e
  | Except.ok pts =>
    if pts.isEmpty then Except.error ParseErr.noRows else Except.ok pts

/-- Python's `pts[::step]`: every `step`-th element starting at index 0. -/
def sliceStep (step : Nat) : List (ℚ × ℚ × ℚ) → List (ℚ × ℚ × ℚ)
  | [] => []
  | x :: xs => x :: sliceStep step (xs.drop (step - 1))
  termination_by l => l.length
  decreasing_by simp; omega

/-- The point list scattered by `SA_OT_tcp_visualize_a.execute`
(lines 367–389): parse with `y_offset=0.281`, then downsample when
`tcp_step > 1`. -/
def tcp_visualize_a_points (hdr column_major : Bool) (step : Nat)
    (lines : List FileLine) : Except ParseErr (List (ℚ × ℚ × ℚ)) :=
  match parse_tcp_positions hdr column_major (mkRat 281 1000) lines with
  | Except.error e => Except.error e
  | Except.ok pts => Except.ok (if 1 < step then sliceStep step pts else pts)

/-- The point list scattered by `SA_OT_tcp_visualize_b.execute`
(lines 395–416): identical to arm A except `y_offset=-0.281`. -/
def tcp_visualize_b_points (hdr column_major : Bool) (step : Nat)
    (lines : List FileLine) : Except ParseErr (List (ℚ × ℚ × ℚ)) :=
  match parse_tcp_positions hdr column_major (-(mkRat 281 1000)) lines with
  | Except.error e => Except.error e
  | Except.ok pts => Except.ok (if 1 < step then sliceStep step pts else pts)

/-- Rounding to 6 decimal places: models the `:.6f` formatting of the
exporter (nearest multiple of `1e-6`; the half-tie direction of the
binary float formatter is immaterial to every claim, which only uses the
`1e-6` bound). -/
def round6 (x : ℚ) : ℚ := (round (x * 1000000) : ℤ) / 1000000

/-- One selected mesh object as seen by the exporter: world translation
`t`, world quaternion `q` (written in x,y,z,w order), and dimensions. -/
structure SceneObj where
  name : String
  px : ℚ
  py : ℚ
  pz : ℚ
  qx : ℚ
  qy : ℚ
  qz : ℚ
  qw : ℚ
  sx : ℚ
  sy : ℚ
  sz : ℚ
deriving DecidableEq

/-- Exporter name sanitisation (lines 32–34): strip surrounding
whitespace, then replace every space with an underscore (modelled over the
character list; a one-character pattern makes the replacement a
per-character substitution). -/
def sanitizeName (s : String) : String :=
  String.mk
    (((s.data.dropWhile Char.isWhitespace).reverse.dropWhile
        Char.isWhitespace).reverse.map (fun c => if c = ' ' then '_' else c))

/-- One stripped, nonempty line of a `.scene` file, abstracted to the
facets the importer reads: `star` is `some name` when the line starts
with `"* "` (with `name = line[2:].strip()`), `nums` is the
`parse_floats` outcome, `low` is the lowercased text (read only on the
shape line; the model leaves it empty on lines the importer never reads
it from).  `blank` marks lines `nonempty_lines` drops. -/
structure SLine where
  blank : Bool
  star : Option String
  nums : Option (List ℚ)
  low : String
deriving DecidableEq

/-- One imported entry of `_parse_scene_file`. -/
structure SceneEntry where
  name : String
  pos : List ℚ
  quat_xyzw : List ℚ
  shape : String
  size : List ℚ
deriving DecidableEq

/-- `parse_floats(line, n)` (lines 51–56): all tokens must be numeric and
exactly `n` of them. -/
def parse_floats (L : SLine) (n : Nat) : Except String (List ℚ) :=
  match L.nums with
  | none => Except.error "non-numeric float field"
  | some vs =>
    if vs.length = n then Except.ok vs
    else Except.error ("Expected " ++ toString n ++ " floats, got " ++ toString vs.length)

/-- The entry loop of `_parse_scene_file` (lines 68–83): skip lines until
an `"* "` marker, then consume the nine following lines as the fixed
block (position, quaternion, the literal `1`, the shape keyword, size,
four placeholders).  The header special case of lines 61–66 is
behaviourally the skip of a non-marker line, which this loop performs
anyway; a truncated block surfaces the iterator exhaustion as an error,
as `StopIteration` does in the source. -/
def parseBlocks : List SLine → Except String (List SceneEntry)
  | [] => Except.ok []
  | L :: rest =>
    match L.star with
    | none => parseBlocks rest
    | some nm =>
      match rest with
      | l1 :: l2 :: _l3 :: l4 :: l5 :: _l6 :: _l7 :: _l8 :: _l9 :: rest2 =>
        match parse_floats l1 3 with
        | Except.error e => Except.error e
        | Except.ok pos =>
          match parse_floats l2 4 with
          | Except.error e => Except.error e
          | Except.ok quat =>
            match parse_floats l5 3 with
            | Except.error e => Except.error e
            | Except.ok size =>
              (parseBlocks rest2).map (fun es =>
                { name := if nm = "" then "cube" else nm
                  pos := pos
                  quat_xyzw := quat
                  shape := l4.low
                  size := size } :: es)
      | _ => Except.error "unexpected end of file"

/-- `_parse_scene_file` (lines 42–84): drop blank lines, then run the
entry loop. -/
def parse_scene_file (lines : List SLine) : Except String (List SceneEntry) :=
  parseBlocks (lines.filter (fun L => !L.blank))

/-- A numeric line of three `:.6f`-formatted values. -/
def numLine3 (a b c : ℚ) : SLine :=
  { blank := false, star := none, nums := some [round6 a, round6 b, round6 c], low := "" }

/-- A numeric line of four `:.6f`-formatted values. -/
def numLine4 (a b c d : ℚ) : SLine :=
  { blank := false, star := none,
    nums := some [round6 a, round6 b, round6 c, round6 d], low := "" }

/-- A fixed exporter line: its literal numeric reading and lowercased
text. -/
def constLine (vs : Option (List ℚ)) (w : String) : SLine :=
  { blank := false, star := none, nums := vs, low := w }

/-- The `"* <name>"` marker line.  When the sanitised name is empty the
physical line `"* "` strips to `"*"`, which no longer starts with
`"* "`, so `star` is `none` in that case. -/
def starLine (nm : String) : SLine :=
  { blank := false, star := if nm = "" then none else some nm, nums := none, low := "" }

/-- The ten lines the exporter writes per object (lines 44–53). -/
def exportBlock (o : SceneObj) : List SLine :=
  [starLine (sanitizeName o.name),
   numLine3 o.px o.py o.pz,
   numLine4 o.qx o.qy o.qz o.qw,
   constLine (some [1]) "1",
   constLine none "box",
   numLine3 o.sx o.sy o.sz,
   constLine (some [0, 0, 0]) "0 0 0",
   constLine (some [0, 0, 0, 1]) "0 0 0 1",
   constLine (some [0, 0, 0, 0]) "0 0 0 0",
   constLine (some [0]) "0"]

/-- Stable insertion by `name.lower()`, one step of the exporter's
`objs.sort(key=lambda o: o.name.lower())`. -/
def insertByName (x : SceneObj) : List SceneObj → List SceneObj
  | [] => [x]
  | y :: ys =>
    if y.name.toLower < x.name.toLower then y :: insertByName x ys
    else x :: y :: ys

/-- The exporter's stable sort of the selected objects by lowercased
name. -/
def sortByName : List SceneObj → List SceneObj
  | [] => []
  | x :: xs => insertByName x (sortByName xs)

/-- `export_objects_to_moveit_scene.py` (lines 23–55): refuse an empty
selection, sort by lowercased name, then emit the header, one block per
object and the final `"."` line. -/
def export_scene (objs : List SceneObj) : Except String (List SLine) :=
  if objs.isEmpty then Except.error "No MESH objects selected."
  else Except.ok
    (constLine none "(noname)+" ::
      ((sortByName objs).map exportBlock).flatten ++ [constLine none "."])

/-- The character of a decimal digit. -/
def digitChar (d : Nat) : Char := Char.ofNat (48 + d)

/-- Decimal rendering of `i` zero-padded to at least three characters:
models Python's `f"{i:03d}"`. -/
def pad3 (i : Nat) : List Char :=
  let ds := ((Nat.digits 10 i).reverse).map digitChar
  List.replicate (3 - ds.length) '0' ++ ds

/-- The candidate name `f"{base}.{i:03d}"` tried by `_unique_name`. -/
def fmtSuffixName (base : String) (i : Nat) : String :=
  base ++ "." ++ String.mk (pad3 i)

/-- Value of a decimal digit character (inverse of `digitChar` on digits). -/
def digitVal (c : Char) : Nat :=
  if c = '1' then 1 else if c = '2' then 2 else if c = '3' then 3
  else if c = '4' then 4 else if c = '5' then 5 else if c = '6' then 6
  else if c = '7' then 7 else if c = '8' then 8 else if c = '9' then 9 else 0

theorem digitVal_digitChar : ∀ d : Nat, d < 10 → digitVal (digitChar d) = d := by
  decide

/-- Reading a padded decimal rendering back. -/
def unpad (l : List Char) : Nat := Nat.ofDigits 10 (l.reverse.map digitVal)

theorem ofDigits_replicate_zero (k : Nat) :
    Nat.ofDigits 10 (List.replicate k 0) = 0 := by
  induction k with
  | zero => simp [Nat.ofDigits]
  | succ n ih => simp [List.replicate_succ, Nat.ofDigits_cons, ih]

theorem unpad_pad3 (i : Nat) : unpad (pad3 i) = i := by
  have hd : ∀ d ∈ Nat.digits 10 i, digitVal (digitChar d) = d := fun d hd =>
    digitVal_digitChar d (Nat.digits_lt_base (by norm_num) hd)
  have hmap : (Nat.digits 10 i).map (fun d => digitVal (digitChar d)) =
      Nat.digits 10 i := by
    rw [List.map_congr_left hd]
    exact List.map_id _
  have h0 : digitVal (Char.ofNat 48) = 0 := by decide
  simp only [unpad, pad3, List.reverse_append, List.reverse_replicate,
    List.map_append, List.map_replicate, List.map_reverse, List.reverse_reverse,
    List.map_map, Function.comp_def, hmap, h0]
  rw [Nat.ofDigits_append, ofDigits_replicate_zero, Nat.ofDigits_digits]
  ring

theorem pad3_injective : Function.Injective pad3 :=
  Function.LeftInverse.injective unpad_pad3

theorem fmtSuffixName_inj (base : String) {i j : Nat}
    (h : fmtSuffixName base i = fmtSuffixName base j) : i = j := by
  have hdata := congrArg String.data h
  simp only [fmtSuffixName, String.data_append] at hdata
  exact pad3_injective (List.append_cancel_left
    (List.append_cancel_left ((List.append_assoc _ _ _).symm.trans
      (hdata.trans (List.append_assoc _ _ _)))))

/-- Termination of the `while True` search of `_unique_name`: the candidate
names are pairwise distinct while the taken set is finite. -/
theorem unique_suffix_exists (base : String) (existing : List String) :
    ∃ i, fmtSuffixName base (i + 1) ∉ existing := by
  by_contra hall
  push_neg at hall
  have hinj : Function.Injective (fun i : Nat => fmtSuffixName base (i + 1)) := by
    intro a b hab
    exact Nat.add_right_cancel (fmtSuffixName_inj base hab)
  have hsub : (Finset.range (existing.length + 1)).image
      (fun i : Nat => fmtSuffixName base (i + 1)) ⊆ existing.toFinset := by
    intro s hs
    rcases Finset.mem_image.1 hs with ⟨i, _, rfl⟩
    exact List.mem_toFinset.2 (hall i)
  have hcard := Finset.card_le_card hsub
  rw [Finset.card_image_of_injective _ hinj, Finset.card_range] at hcard
  have hfin := List.toFinset_card_le existing
  omega

/-- `_unique_name` (lines 30–40): return `base` unless taken, else the
first free `f"{base}.{i:03d}"` with `i` counting up from 1. -/
def _unique_name (base : String) (existing : List String) : String :=
  if base ∈ existing then
    fmtSuffixName base (Nat.find (unique_suffix_exists base existing) + 1)
  else base

/-- `_spawn_cube_unique` (lines 86–100) restricted to the object-name
choice it makes before creating the cube: the fresh cube is renamed to
`_unique_name(base_name, names of all existing objects)`. -/
def spawn_cube_object_name (base : String) (existing : List String) : String :=
  _unique_name base existing

theorem eps12_pos : 0 < eps12 := by decide

theorem eps9_pos : 0 < eps9 := by decide

theorem mem_insertByTime {x y : ℚ × Pose} {l : List (ℚ × Pose)} :
    y ∈ insertByTime x l ↔ y = x ∨ y ∈ l := by
  induction l with
  | nil => simp [insertByTime]
  | cons z zs ih =>
    by_cases hz : z.1 < x.1
    · simp only [insertByTime, if_pos hz, List.mem_cons, ih]
      tauto
    · simp only [insertByTime, if_neg hz, List.mem_cons]

theorem mem_sortByTime {y : ℚ × Pose} {l : List (ℚ × Pose)} :
    y ∈ sortByTime l ↔ y ∈ l := by
  induction l with
  | nil => simp [sortByTime]
  | cons x xs ih => simp [sortByTime, mem_insertByTime, ih]

theorem pairwise_insertByTime {x : ℚ × Pose} {l : List (ℚ × Pose)}
    (h : List.Pairwise (fun a b : ℚ × Pose => a.1 ≤ b.1) l) :
    List.Pairwise (fun a b : ℚ × Pose => a.1 ≤ b.1) (insertByTime x l) := by
  induction l with
  | nil => simp [insertByTime]
  | cons y ys ih =>
    rw [List.pairwise_cons] at h
    by_cases hy : y.1 < x.1
    · rw [insertByTime, if_pos hy, List.pairwise_cons]
      refine ⟨fun z hz => ?_, ih h.2⟩
      rcases mem_insertByTime.1 hz with rfl | hz2
      · exact le_of_lt hy
      · exact h.1 z hz2
    · rw [insertByTime, if_neg hy, List.pairwise_cons]
      push_neg at hy
      refine ⟨fun z hz => ?_, List.pairwise_cons.2 h⟩
      rcases List.mem_cons.1 hz with rfl | hz2
      · exact hy
      · exact le_trans hy (h.1 z hz2)

theorem pairwise_sortByTime (l : List (ℚ × Pose)) :
    List.Pairwise (fun a b : ℚ × Pose => a.1 ≤ b.1) (sortByTime l) := by
  induction l with
  | nil => simp [sortByTime]
  | cons x xs ih => exact pairwise_insertByTime ih

theorem perm_insertByTime (x : ℚ × Pose) (l : List (ℚ × Pose)) :
    (insertByTime x l).Perm (x :: l) := by
  induction l with
  | nil => simp [insertByTime]
  | cons y ys ih =>
    by_cases hy : y.1 < x.1
    · rw [insertByTime, if_pos hy]
      exact (ih.cons y).trans (List.Perm.swap x y ys)
    · rw [insertByTime, if_neg hy]

theorem perm_sortByTime (l : List (ℚ × Pose)) : (sortByTime l).Perm l := by
  induction l with
  | nil => simp [sortByTime]
  | cons x xs ih => exact (perm_insertByTime x (sortByTime xs)).trans (ih.cons x)

theorem dedupRun_subset :
    ∀ (rest : List (ℚ × Pose)) (cur z : ℚ × Pose),
      z ∈ dedupRun cur rest → z ∈ cur :: rest
  | [], cur, z, hz => by simpa [dedupRun] using hz
  | x :: rest2, cur, z, hz => by
    rw [dedupRun] at hz
    by_cases hc : |x.1 - cur.1| < eps12
    · rw [if_pos hc] at hz
      have := dedupRun_subset rest2 x z hz
      simp only [List.mem_cons] at this ⊢
      tauto
    · rw [if_neg hc] at hz
      rcases List.mem_cons.1 hz with rfl | hz2
      · exact List.mem_cons_self _ _
      · have := dedupRun_subset rest2 x z hz2
        simp only [List.mem_cons] at this ⊢
        tauto

theorem dedupRun_spec :
    ∀ (rest : List (ℚ × Pose)) (cur : ℚ × Pose),
      List.Pairwise (fun a b : ℚ × Pose => a.1 ≤ b.1) (cur :: rest) →
      List.Pairwise (fun a b : ℚ × Pose => a.1 < b.1) (dedupRun cur rest) ∧
        ∀ z ∈ dedupRun cur rest, cur.1 ≤ z.1
  | [], cur, _ => by simp [dedupRun]
  | x :: rest2, cur, h => by
    rw [List.pairwise_cons] at h
    have hcx : cur.1 ≤ x.1 := h.1 x (List.mem_cons_self _ _)
    rw [dedupRun]
    by_cases hc : |x.1 - cur.1| < eps12
    · rw [if_pos hc]
      obtain ⟨ih1, ih2⟩ := dedupRun_spec rest2 x h.2
      exact ⟨ih1, fun z hz => le_trans hcx (ih2 z hz)⟩
    · rw [if_neg hc]
      obtain ⟨ih1, ih2⟩ := dedupRun_spec rest2 x h.2
      have hlt : cur.1 < x.1 := by
        have habs : eps12 ≤ |x.1 - cur.1| := not_lt.1 hc
        rw [abs_of_nonneg (by linarith)] at habs
        have := eps12_pos
        linarith
      refine ⟨List.pairwise_cons.2 ⟨fun z hz => lt_of_lt_of_le hlt (ih2 z hz), ih1⟩,
        fun z hz => ?_⟩
      rcases List.mem_cons.1 hz with rfl | hz2
      · exact le_refl _
      · exact le_of_lt (lt_of_lt_of_le hlt (ih2 z hz2))

/-- The pose of the last row (in list order) whose time is exactly `t`. -/
def lastPoseAt (l : List (ℚ × Pose)) (t : ℚ) : Pose :=
  ((l.filter (fun p => decide (p.1 = t))).getLastD (0, [])).2

theorem filter_insertByTime_eq (x : ℚ × Pose) (l : List (ℚ × Pose)) (t : ℚ)
    (hx : x.1 = t) :
    (insertByTime x l).filter (fun p => decide (p.1 = t)) =
      x :: l.filter (fun p => decide (p.1 = t)) := by
  induction l with
  | nil => simp [insertByTime, hx]
  | cons y ys ih =>
    by_cases hy : y.1 < x.1
    · have hyt : ¬ y.1 = t := fun hyt => absurd hy (by rw [hyt, hx]; exact lt_irrefl t)
      rw [insertByTime, if_pos hy]
      simp only [List.filter_cons, hyt, decide_eq_true_eq, if_false, ih,
        decide_eq_false hyt]
    · rw [insertByTime, if_neg hy]
      simp [List.filter_cons, hx]

theorem filter_insertByTime_ne (x : ℚ × Pose) (l : List (ℚ × Pose)) (t : ℚ)
    (hx : ¬ x.1 = t) :
    (insertByTime x l).filter (fun p => decide (p.1 = t)) =
      l.filter (fun p => decide (p.1 = t)) := by
  induction l with
  | nil => simp [insertByTime, hx]
  | cons y ys ih =>
    by_cases hy : y.1 < x.1
    · rw [insertByTime, if_pos hy]
      simp only [List.filter_cons, ih]
    · rw [insertByTime, if_neg hy]
      simp only [List.filter_cons, decide_eq_false hx]
      simp

theorem filter_sortByTime (l : List (ℚ × Pose)) (t : ℚ) :
    (sortByTime l).filter (fun p => decide (p.1 = t)) =
      l.filter (fun p => decide (p.1 = t)) := by
  induction l with
  | nil => simp [sortByTime]
  | cons x xs ih =>
    rw [sortByTime]
    by_cases hx : x.1 = t
    · rw [filter_insertByTime_eq x _ t hx, ih, List.filter_cons,
        decide_eq_true hx]
      simp
    · rw [filter_insertByTime_ne x _ t hx, ih, List.filter_cons,
        decide_eq_false hx]
      simp

theorem lastPoseAt_sortByTime (l : List (ℚ × Pose)) (t : ℚ) :
    lastPoseAt (sortByTime l) t = lastPoseAt l t := by
  rw [lastPoseAt, lastPoseAt, filter_sortByTime]

theorem getLastD_cons_of_ne_nil {α : Type} {l : List α} (h : l ≠ []) (a d : α) :
    (a :: l).getLastD d = l.getLastD d := by
  cases l with
  | nil => exact absurd rfl h
  | cons b m =>
    rw [List.getLastD_eq_getLast?, List.getLastD_eq_getLast?,
      List.getLast?_cons_cons]

theorem dedupRun_last_wins :
    ∀ (rest : List (ℚ × Pose)) (cur : ℚ × Pose),
      List.Pairwise (fun a b : ℚ × Pose => a.1 ≤ b.1) (cur :: rest) →
      (∀ a ∈ cur :: rest, ∀ b ∈ cur :: rest, a.1 ≠ b.1 → eps12 ≤ |a.1 - b.1|) →
      ∀ t ∈ (cur :: rest).map Prod.fst,
        (t, lastPoseAt (cur :: rest) t) ∈ dedupRun cur rest
  | [], cur, _, _, t, ht => by
    simp only [List.map_cons, List.map_nil, List.mem_cons, List.not_mem_nil,
      or_false] at ht
    subst ht
    simp [dedupRun, lastPoseAt, List.filter_cons]
  | x :: rest2, cur, h, hsep, t, ht => by
    have hpair := List.pairwise_cons.1 h
    have hsep2 : ∀ a ∈ x :: rest2, ∀ b ∈ x :: rest2, a.1 ≠ b.1 →
        eps12 ≤ |a.1 - b.1| := fun a ha b hb =>
      hsep a (List.mem_cons_of_mem _ ha) b (List.mem_cons_of_mem _ hb)
    have IH := dedupRun_last_wins rest2 x hpair.2 hsep2
    rw [dedupRun]
    by_cases hc : |x.1 - cur.1| < eps12
    · have heq : cur.1 = x.1 := by
        by_contra hne
        have hge := hsep x (List.mem_cons_of_mem _ (List.mem_cons_self _ _))
          cur (List.mem_cons_self _ _) (fun h2 => hne h2.symm)
        linarith
      rw [if_pos hc]
      have ht2 : t ∈ (x :: rest2).map Prod.fst := by
        rcases List.mem_map.1 ht with ⟨p, hp, rfl⟩
        rcases List.mem_cons.1 hp with rfl | hp2
        · exact List.mem_map.2 ⟨x, List.mem_cons_self _ _, heq.symm⟩
        · exact List.mem_map.2 ⟨p, hp2, rfl⟩
      have hlast : lastPoseAt (cur :: x :: rest2) t = lastPoseAt (x :: rest2) t := by
        by_cases hct : cur.1 = t
        · have hxt : x.1 = t := heq ▸ hct
          have hfil : List.filter (fun p => decide (p.1 = t)) (x :: rest2) ≠ [] := by
            simp [List.filter_cons, decide_eq_true hxt]
          rw [lastPoseAt, lastPoseAt,
            show List.filter (fun p => decide (p.1 = t)) (cur :: x :: rest2) =
              cur :: List.filter (fun p => decide (p.1 = t)) (x :: rest2) by
                simp [List.filter_cons, decide_eq_true hct],
            getLastD_cons_of_ne_nil hfil]
        · rw [lastPoseAt, lastPoseAt, List.filter_cons, decide_eq_false hct]
          simp
      rw [hlast]
      exact IH t ht2
    · have hcx : cur.1 ≤ x.1 := hpair.1 x (List.mem_cons_self _ _)
      have hne : cur.1 ≠ x.1 := by
        intro h2
        apply hc
        rw [h2, sub_self, abs_zero]
        exact eps12_pos
      have hlt : cur.1 < x.1 := lt_of_le_of_ne hcx hne
      have hall : ∀ z ∈ x :: rest2, cur.1 < z.1 := by
        intro z hz
        rcases List.mem_cons.1 hz with rfl | hz2
        · exact hlt
        · exact lt_of_lt_of_le hlt ((List.pairwise_cons.1 hpair.2).1 z hz2)
      rw [if_neg hc]
      rcases List.mem_map.1 ht with ⟨p, hp, rfl⟩
      rcases List.mem_cons.1 hp with rfl | hp2
      · have hfilnil : List.filter (fun q => decide (q.1 = p.1)) (x :: rest2) = [] := by
          rw [List.filter_eq_nil_iff]
          intro z hz
          simp only [decide_eq_true_eq]
          exact ne_of_gt (hall z hz)
        have hlp : lastPoseAt (p :: x :: rest2) p.1 = p.2 := by
          rw [lastPoseAt, List.filter_cons]
          simp [hfilnil]
        rw [hlp]
        exact List.mem_cons_self _ _
      · have hct : ¬ cur.1 = p.1 := ne_of_lt (hall p hp2)
        have hlast : lastPoseAt (cur :: x :: rest2) p.1 =
            lastPoseAt (x :: rest2) p.1 := by
          rw [lastPoseAt, lastPoseAt, List.filter_cons, decide_eq_false hct]
          simp
        rw [hlast]
        exact List.mem_cons_of_mem _ (IH p.1 (List.mem_map.2 ⟨p, hp2, rfl⟩))

theorem zip_unzipPairs (l : List (ℚ × Pose)) :
    (unzipPairs l).t.zip (unzipPairs l).q = l := by
  induction l with
  | nil => simp [unzipPairs]
  | cons x xs ih =>
    simp only [unzipPairs, List.map_cons, List.zip_cons_cons] at ih ⊢
    rw [ih]

/-- C1 (amended): any trajectory accepted by `parse_single_arm` has strictly
increasing times; every retained `(time, pose)` entry is one of the parsed
input rows (the later pair of a collapsed group wins with both its pose and
its time); and provided all distinct input timestamps differ by at least
`1e-12`, each input timestamp is retained together with the pose of its last
occurrence in original file order. -/
theorem parse_single_arm_sorted_dedup
    (tums hdr degrees : Bool) (radians : ℚ → ℚ) (lines : List FileLine)
    (rows : List (ℚ × Pose)) (tr : Traj)
    (hrows : collectRows tums hdr degrees radians lines = Except.ok rows)
    (hok : parse_single_arm tums hdr degrees radians lines = Except.ok tr) :
    List.Pairwise (· < ·) tr.t ∧
    (∀ p ∈ tr.t.zip tr.q, p ∈ rows) ∧
    ((∀ a ∈ rows, ∀ b ∈ rows, a.1 ≠ b.1 → eps12 ≤ |a.1 - b.1|) →
      ∀ r ∈ rows, (r.1, lastPoseAt rows r.1) ∈ tr.t.zip tr.q) := by
  rw [parse_single_arm, hrows] at hok
  have hok2 : (if rows.isEmpty then (Except.error ParseErr.noRows : Except ParseErr Traj)
      else Except.ok (unzipPairs (dedup (sortByTime rows)))) = Except.ok tr := hok
  by_cases hemp : rows.isEmpty
  · rw [if_pos hemp] at hok2
    exact absurd hok2 (by simp)
  · rw [if_neg hemp] at hok2
    have htr : tr = unzipPairs (dedup (sortByTime rows)) :=
      (Except.ok.inj hok2).symm
    subst htr
    have hrows_ne : rows ≠ [] := by
      intro h2
      rw [h2] at hemp
      exact hemp rfl
    have hsort_ne : sortByTime rows ≠ [] := by
      intro h2
      have hperm := perm_sortByTime rows
      rw [h2] at hperm
      exact hrows_ne hperm.symm.eq_nil
    obtain ⟨cur, rest, hcr⟩ : ∃ cur rest, sortByTime rows = cur :: rest := by
      cases hs : sortByTime rows with
      | nil => exact absurd hs hsort_ne
      | cons a l => exact ⟨a, l, rfl⟩
    have hpair : List.Pairwise (fun a b : ℚ × Pose => a.1 ≤ b.1) (cur :: rest) := by
      rw [← hcr]
      exact pairwise_sortByTime rows
    have hded : dedup (sortByTime rows) = dedupRun cur rest := by
      rw [hcr, dedup]
    obtain ⟨hlt, _⟩ := dedupRun_spec rest cur hpair
    refine ⟨?_, ?_, ?_⟩
    · show List.Pairwise (· < ·) ((dedup (sortByTime rows)).map Prod.fst)
      rw [hded, List.pairwise_map]
      exact hlt
    · intro p hp
      rw [zip_unzipPairs, hded] at hp
      have := dedupRun_subset rest cur p hp
      rw [← hcr] at this
      exact mem_sortByTime.1 this
    · intro hsep r hr
      rw [zip_unzipPairs, hded]
      have hsep_s : ∀ a ∈ cur :: rest, ∀ b ∈ cur :: rest, a.1 ≠ b.1 →
          eps12 ≤ |a.1 - b.1| := by
        intro a ha b hb
        rw [← hcr] at ha hb
        exact hsep a (mem_sortByTime.1 ha) b (mem_sortByTime.1 hb)
      have hmem : r.1 ∈ (cur :: rest).map Prod.fst := by
        rw [← hcr]
        exact List.mem_map.2 ⟨r, mem_sortByTime.2 hr, rfl⟩
      have hlp : lastPoseAt (cur :: rest) r.1 = lastPoseAt rows r.1 := by
        rw [← hcr]
        exact lastPoseAt_sortByTime rows r.1
      have := dedupRun_last_wins rest cur hpair hsep_s r.1 hmem
      rw [hlp] at this
      exact this

/-- C1 counterexample: with input rows at times `0`, `0`, `5e-13` the whole
group collapses into the single entry `(5e-13, pose3)`: the exactly
duplicated timestamp `0` does not retain the pose of its last occurrence
(`pose2` is gone, and so is the time `0`), and the collapsed entry carries
the later pair's time, not the earlier one's. -/
theorem parse_single_arm_last_occurrence_counterexample :
    parse_single_arm false false false id
        [sampleRow 0 1, sampleRow 0 2, sampleRow (mkRat 1 2000000000000) 3] =
      Except.ok { t := [mkRat 1 2000000000000], q := [List.replicate 7 3] } ∧
    (0 : ℚ) ∉ [mkRat 1 2000000000000] ∧
    List.replicate 7 (2 : ℚ) ∉ [List.replicate 7 (3 : ℚ)] := by
  refine ⟨?_, by decide, by decide⟩
  norm_num [parse_single_arm, collectRows, toVals, sampleRow, numRow, rowOf,
    sortByTime, insertByTime, dedup, dedupRun, unzipPairs, eps12,
    List.replicate, abs_lt, Except.map]

/-- Witness for the amended C1 theorem at a concrete two-row input. -/
theorem parse_single_arm_sorted_dedup_witness :
    collectRows false false false id [sampleRow 0 5, sampleRow 1 6] =
      Except.ok [(0, List.replicate 7 5), (1, List.replicate 7 6)] ∧
    parse_single_arm false false false id [sampleRow 0 5, sampleRow 1 6] =
      Except.ok { t := [0, 1], q := [List.replicate 7 5, List.replicate 7 6] } ∧
    List.Pairwise (· < ·) ([0, 1] : List ℚ) := by
  have h1 : collectRows false false false id [sampleRow 0 5, sampleRow 1 6] =
      Except.ok [(0, List.replicate 7 5), (1, List.replicate 7 6)] := by
    norm_num [collectRows, toVals, sampleRow, numRow, rowOf, List.replicate,
      Except.map]
  have h2 : parse_single_arm false false false id [sampleRow 0 5, sampleRow 1 6] =
      Except.ok { t := [0, 1], q := [List.replicate 7 5, List.replicate 7 6] } := by
    norm_num [parse_single_arm, collectRows, toVals, sampleRow, numRow, rowOf,
      sortByTime, insertByTime, dedup, dedupRun, unzipPairs, eps12,
      List.replicate, abs_lt, Except.map]
  exact ⟨h1, h2,
    (parse_single_arm_sorted_dedup false false false id _ _ _ h1 h2).1⟩

theorem getLastD_mem : ∀ (a : ℚ) (l : List ℚ) (d : ℚ),
    (a :: l).getLastD d ∈ a :: l
  | a, [], _ => by simp
  | a, b :: m, d => by
    rw [getLastD_cons_of_ne_nil (by simp) a d]
    exact List.mem_cons_of_mem a (getLastD_mem b m d)

/-- C2: under the trajectory invariants (non-empty times, strictly
increasing, matching pose count), `sample_q` returns the first pose
unchanged for any query at or before the first time and the last pose
unchanged for any query at or after the last time. -/
theorem sample_q_clamp (T : Traj) (hne : T.t ≠ [])
    (hlen : T.q.length = T.t.length)
    (hmono : List.Pairwise (· < ·) T.t) :
    (∀ qt, qt ≤ T.t.headD 0 → sample_q T qt = T.q.headD []) ∧
    (∀ qt, T.t.getLastD 0 ≤ qt → sample_q T qt = T.q.getLastD []) := by
  constructor
  · intro qt h
    rw [sample_q, if_pos h]
  · intro qt h
    by_cases hq0 : qt ≤ T.t.headD 0
    · rw [sample_q, if_pos hq0]
      cases ht : T.t with
      | nil => exact absurd ht hne
      | cons a l =>
        cases l with
        | nil =>
          have hq1 : T.q.length = 1 := by rw [hlen, ht]; rfl
          cases hq : T.q with
          | nil => rw [hq] at hq1; exact absurd hq1 (by simp)
          | cons p ps =>
            rw [hq] at hq1
            have hps : ps = [] := by
              have : ps.length = 0 := by
                simpa using hq1
              exact List.length_eq_zero.1 this
            subst hps
            rfl
        | cons b m =>
          exfalso
          rw [ht] at h hq0
          rw [getLastD_cons_of_ne_nil (by simp) a 0] at h
          have hmem : (b :: m).getLastD 0 ∈ b :: m := getLastD_mem b m 0
          rw [ht] at hmono
          have hab := (List.pairwise_cons.1 hmono).1 _ hmem
          simp only [List.headD_cons] at hq0
          linarith
    · rw [sample_q, if_neg hq0, if_pos h]

/-- Witness for the C2 clamp theorem at a concrete trajectory. -/
theorem sample_q_clamp_witness :
    (([0, 1] : List ℚ) ≠ []) ∧
    ([List.replicate 7 (2 : ℚ), List.replicate 7 3].length = ([0, 1] : List ℚ).length) ∧
    List.Pairwise (· < ·) ([0, 1] : List ℚ) ∧
    sample_q { t := [0, 1], q := [List.replicate 7 2, List.replicate 7 3] } 0 =
      List.replicate 7 2 ∧
    sample_q { t := [0, 1], q := [List.replicate 7 2, List.replicate 7 3] } 5 =
      List.replicate 7 3 := by
  have hne : (([0, 1] : List ℚ) ≠ []) := by simp
  have hlen : ([List.replicate 7 (2 : ℚ), List.replicate 7 3].length =
      ([0, 1] : List ℚ).length) := by simp
  have hmono : List.Pairwise (· < ·) ([0, 1] : List ℚ) := by
    norm_num [List.pairwise_cons]
  have hth := sample_q_clamp
    { t := [0, 1], q := [List.replicate 7 2, List.replicate 7 3] } hne hlen hmono
  refine ⟨hne, hlen, hmono, ?_, ?_⟩
  · have := hth.1 0 (by norm_num)
    simpa using this
  · have := hth.2 5 (by norm_num)
    simpa using this

theorem takeWhile_length_eq (p : ℚ → Bool) :
    ∀ (l : List ℚ) (j : Nat),
      (∀ k, k < j → ∃ v, l[k]? = some v ∧ p v = true) →
      (∃ v, l[j]? = some v ∧ ¬ p v = true) →
      (l.takeWhile p).length = j
  | [], j, _, h2 => by
    rcases h2 with ⟨v, hv, _⟩
    simp at hv
  | a :: l2, 0, _, h2 => by
    rcases h2 with ⟨v, hv, hpv⟩
    simp only [List.getElem?_cons_zero, Option.some.injEq] at hv
    subst hv
    rw [List.takeWhile_cons]
    simp [hpv]
  | a :: l2, j + 1, h1, h2 => by
    obtain ⟨v, hv, hpv⟩ := h1 0 (Nat.succ_pos j)
    simp only [List.getElem?_cons_zero, Option.some.injEq] at hv
    subst hv
    rw [List.takeWhile_cons]
    simp only [hpv, if_true, List.length_cons]
    have ih := takeWhile_length_eq p l2 j
      (fun k hk => by
        obtain ⟨w, hw, hpw⟩ := h1 (k + 1) (Nat.succ_lt_succ hk)
        exact ⟨w, by simpa using hw, hpw⟩)
      (by
        obtain ⟨w, hw, hpw⟩ := h2
        exact ⟨w, by simpa using hw, hpw⟩)
    omega

theorem bisect_left_eq (l : List ℚ) (x : ℚ) (j : Nat)
    (h1 : ∀ k, k < j → ∃ v, l[k]? = some v ∧ v < x)
    (h2 : ∃ v, l[j]? = some v ∧ ¬ v < x) :
    bisect_left l x = j := by
  rw [bisect_left]
  refine takeWhile_length_eq _ l j ?_ ?_
  · intro k hk
    obtain ⟨v, hv, hlt⟩ := h1 k hk
    exact ⟨v, hv, by simpa using hlt⟩
  · obtain ⟨v, hv, hge⟩ := h2
    exact ⟨v, hv, by simpa using hge⟩

theorem headD_eq_getElem (l : List ℚ) (d : ℚ) (h : 0 < l.length) :
    l.headD d = l[0] := by
  cases l with
  | nil => simp at h
  | cons a m => rfl

theorem getLastD_eq_getElem :
    ∀ (l : List ℚ) (d : ℚ) (h : 0 < l.length), l.getLastD d = l[l.length - 1]
  | [a], _, _ => rfl
  | a :: b :: m, d, _ => by
    rw [getLastD_cons_of_ne_nil (by simp) a d,
      getLastD_eq_getElem (b :: m) d (by simp)]
    simp only [List.length_cons, Nat.add_sub_cancel]
    rw [List.getElem_cons_succ]

theorem getD_eq_getElem_of_lt (l : List ℚ) (n : Nat) (d : ℚ) (h : n < l.length) :
    l.getD n d = l[n] := by
  rw [List.getD_eq_getElem?_getD, List.getElem?_eq_getElem h]
  rfl

theorem getD_eq_getElem_of_lt_pose (l : List Pose) (n : Nat) (d : Pose)
    (h : n < l.length) : l.getD n d = l[n] := by
  rw [List.getD_eq_getElem?_getD, List.getElem?_eq_getElem h]
  rfl

theorem pairwise_lt_le_getElem (l : List ℚ)
    (h : List.Pairwise (· < ·) l) {i j : Nat} (hi : i ≤ j) (hj : j < l.length) :
    l.get ⟨i, lt_of_le_of_lt hi hj⟩ ≤ l[j] := by
  rcases lt_or_eq_of_le hi with hlt | rfl
  · exact le_of_lt ((List.pairwise_iff_getElem.1 h) i j _ hj hlt)
  · exact le_refl _

theorem getD_zipWith (f : ℚ → ℚ → ℚ) :
    ∀ (l1 l2 : List ℚ) (k : Nat) (d : ℚ), k < l1.length → k < l2.length →
      (List.zipWith f l1 l2).getD k d = f (l1.getD k d) (l2.getD k d)
  | [], _, k, _, h1, _ => by simp at h1
  | _ :: _, [], k, _, _, h2 => by simp at h2
  | a :: l1, b :: l2, 0, d, _, _ => by simp
  | a :: l1, b :: l2, k + 1, d, h1, h2 => by
    simp only [List.zipWith_cons_cons, List.getD_cons_succ]
    exact getD_zipWith f l1 l2 k d (by simpa using h1) (by simpa using h2)

theorem blend_between (a b r : ℚ) (h0 : 0 ≤ r) (h1 : r ≤ 1) :
    min a b ≤ (1 - r) * a + r * b ∧ (1 - r) * a + r * b ≤ max a b := by
  constructor
  · rcases le_total a b with h | h
    · rw [min_eq_left h]
      nlinarith
    · rw [min_eq_right h]
      nlinarith
  · rcases le_total a b with h | h
    · rw [max_eq_right h]
      nlinarith
    · rw [max_eq_left h]
      nlinarith

theorem zipWith_eq_right (f : ℚ → ℚ → ℚ) (hf : ∀ a b, f a b = b) :
    ∀ (l1 l2 : List ℚ), l1.length = l2.length → List.zipWith f l1 l2 = l2
  | [], [], _ => by simp
  | [], _ :: _, h => by simp at h
  | _ :: _, [], h => by simp at h
  | a :: l1, b :: l2, h => by
    simp only [List.zipWith_cons_cons, hf]
    rw [zipWith_eq_right f hf l1 l2 (by simpa using h)]

theorem sample_q_interior (T : Traj) (j : Nat) (qt : ℚ)
    (hj : j + 1 < T.t.length)
    (hmono : List.Pairwise (· < ·) T.t)
    (h0 : T.t.getD j 0 < qt) (h1 : qt < T.t.getD (j + 1) 0) :
    sample_q T qt =
      if T.t.getD (j + 1) 0 ≤ T.t.getD j 0 + eps12 then T.q.getD (j + 1) []
      else
        List.zipWith
          (fun a b =>
            (1 - (qt - T.t.getD j 0) / (T.t.getD (j + 1) 0 - T.t.getD j 0)) * a +
              (qt - T.t.getD j 0) / (T.t.getD (j + 1) 0 - T.t.getD j 0) * b)
          (T.q.getD j []) (T.q.getD (j + 1) []) := by
  have hjlen : j < T.t.length := by omega
  have he0 : T.t.getD j 0 = T.t[j] := getD_eq_getElem_of_lt _ _ _ hjlen
  have he1 : T.t.getD (j + 1) 0 = T.t[j + 1] := getD_eq_getElem_of_lt _ _ _ hj
  have hlen_pos : 0 < T.t.length := by omega
  have hhead : ¬ (qt ≤ T.t.headD 0) := by
    rw [headD_eq_getElem _ _ hlen_pos]
    have hle : T.t.get ⟨0, hlen_pos⟩ ≤ T.t[j] :=
      pairwise_lt_le_getElem _ hmono (Nat.zero_le j) hjlen
    rw [List.get_eq_getElem] at hle
    rw [he0] at h0
    push_neg
    linarith
  have hlast : ¬ (T.t.getLastD 0 ≤ qt) := by
    rw [getLastD_eq_getElem _ _ hlen_pos]
    have hle : T.t[j + 1] ≤ T.t.get ⟨T.t.length - 1, by omega⟩ :=
      pairwise_lt_le_getElem _ hmono (by omega) (by omega)
    rw [List.get_eq_getElem] at hle
    rw [he1] at h1
    push_neg
    linarith
  have hb : bisect_left T.t qt = j + 1 := by
    apply bisect_left_eq
    · intro k hk
      have hkl : k < T.t.length := by omega
      refine ⟨T.t[k], List.getElem?_eq_getElem hkl, ?_⟩
      have hle : T.t[k] ≤ T.t[j] :=
        pairwise_lt_le_getElem _ hmono (by omega) hjlen
      rw [he0] at h0
      linarith
    · refine ⟨T.t[j + 1], List.getElem?_eq_getElem hj, ?_⟩
      rw [he1] at h1
      push_neg
      linarith
  simp only [sample_q]
  rw [if_neg hhead, if_neg hlast, hb]
  simp only [Nat.add_sub_cancel]

/-- C3 (amended): for a query strictly inside a bracketing interval,
`sample_q` returns the exact componentwise linear blend whenever the
interval is longer than `1e-12`, and the later pose directly when the
interval length is at most `1e-12`; in both cases every component lies
between the bracketing pose components, and the literal example
(times `[0,1]`, poses `[0]*7` and `[7]*7`, query `0.5`) evaluates to
`[3.5]*7`. -/
theorem sample_q_interpolation (T : Traj) (j : Nat) (qt : ℚ)
    (hj : j + 1 < T.t.length)
    (hmono : List.Pairwise (· < ·) T.t)
    (h0 : T.t.getD j 0 < qt) (h1 : qt < T.t.getD (j + 1) 0) :
    (eps12 < T.t.getD (j + 1) 0 - T.t.getD j 0 →
      sample_q T qt =
        List.zipWith
          (fun a b =>
            (1 - (qt - T.t.getD j 0) / (T.t.getD (j + 1) 0 - T.t.getD j 0)) * a +
              (qt - T.t.getD j 0) / (T.t.getD (j + 1) 0 - T.t.getD j 0) * b)
          (T.q.getD j []) (T.q.getD (j + 1) [])) ∧
    (T.t.getD (j + 1) 0 - T.t.getD j 0 ≤ eps12 →
      sample_q T qt = T.q.getD (j + 1) []) ∧
    (∀ k, ∀ d : ℚ, k < (T.q.getD j []).length → k < (T.q.getD (j + 1) []).length →
      min ((T.q.getD j []).getD k d) ((T.q.getD (j + 1) []).getD k d) ≤
          (sample_q T qt).getD k d ∧
        (sample_q T qt).getD k d ≤
          max ((T.q.getD j []).getD k d) ((T.q.getD (j + 1) []).getD k d)) ∧
    sample_q { t := [0, 1], q := [List.replicate 7 0, List.replicate 7 7] }
        (mkRat 1 2) = List.replicate 7 (mkRat 7 2) := by
  have hred := sample_q_interior T j qt hj hmono h0 h1
  refine ⟨?_, ?_, ?_, ?_⟩
  · intro hgap
    rw [hred, if_neg (by linarith)]
  · intro hgap
    rw [hred, if_pos (by linarith)]
  · intro k d hk0 hk1
    rw [hred]
    by_cases hc : T.t.getD (j + 1) 0 ≤ T.t.getD j 0 + eps12
    · rw [if_pos hc]
      exact ⟨min_le_right _ _, le_max_right _ _⟩
    · rw [if_neg hc]
      rw [getD_zipWith _ _ _ _ _ hk0 hk1]
      have hden : 0 < T.t.getD (j + 1) 0 - T.t.getD j 0 := by
        push_neg at hc
        have := eps12_pos
        linarith
      have hr0 : 0 ≤ (qt - T.t.getD j 0) / (T.t.getD (j + 1) 0 - T.t.getD j 0) :=
        div_nonneg (by linarith) (le_of_lt hden)
      have hr1 : (qt - T.t.getD j 0) / (T.t.getD (j + 1) 0 - T.t.getD j 0) ≤ 1 := by
        rw [div_le_one hden]
        linarith
      exact blend_between _ _ _ hr0 hr1
  · norm_num [sample_q, bisect_left, List.takeWhile_cons, eps12,
      List.replicate, decide_eq_true_eq, List.zipWith]

/-- C3 counterexample: times `[0, 5e-13]` are strictly increasing and the
query `2.5e-13` lies strictly between them, yet `sample_q` returns the
later pose `[7]*7` rather than the linear blend `[3.5]*7`, because the
interval is not longer than `1e-12`. -/
theorem sample_q_blend_counterexample :
    sample_q { t := [0, mkRat 1 2000000000000],
               q := [List.replicate 7 0, List.replicate 7 7] }
        (mkRat 1 4000000000000) = List.replicate 7 7 ∧
    (1 - (mkRat 1 4000000000000 - 0) / (mkRat 1 2000000000000 - 0)) * 0 +
        (mkRat 1 4000000000000 - 0) / (mkRat 1 2000000000000 - 0) * 7 =
      mkRat 7 2 ∧
    List.replicate 7 (7 : ℚ) ≠ List.replicate 7 (mkRat 7 2) := by
  refine ⟨?_, by norm_num, by norm_num [List.replicate]⟩
  norm_num [sample_q, bisect_left, List.takeWhile_cons, eps12,
    List.replicate, decide_eq_true_eq]

/-- Witness for the amended C3 theorem at the literal spec example. -/
theorem sample_q_interpolation_witness :
    List.Pairwise (· < ·) ([0, 1] : List ℚ) ∧
    (([0, 1] : List ℚ).getD 0 0 < mkRat 1 2) ∧
    (mkRat 1 2 < ([0, 1] : List ℚ).getD 1 0) ∧
    sample_q { t := [0, 1], q := [List.replicate 7 0, List.replicate 7 7] }
        (mkRat 1 2) = List.replicate 7 (mkRat 7 2) := by
  have hmono : List.Pairwise (· < ·) ([0, 1] : List ℚ) := by
    norm_num [List.pairwise_cons]
  have h0 : (([0, 1] : List ℚ).getD 0 0 < mkRat 1 2) := by norm_num
  have h1 : (mkRat 1 2 < ([0, 1] : List ℚ).getD 1 0) := by norm_num
  exact ⟨hmono, h0, h1,
    (sample_q_interpolation
      { t := [0, 1], q := [List.replicate 7 0, List.replicate 7 7] } 0
      (mkRat 1 2) (by norm_num) hmono h0 h1).2.2.2⟩

theorem headD_eq_getElem_gen {α : Type} (l : List α) (d : α) (h : 0 < l.length) :
    l.headD d = l[0] := by
  cases l with
  | nil => simp at h
  | cons a m => rfl

theorem getLastD_eq_getElem_gen {α : Type} :
    ∀ (l : List α) (d : α) (h : 0 < l.length), l.getLastD d = l[l.length - 1]
  | [a], _, _ => rfl
  | a :: b :: m, d, _ => by
    rw [getLastD_cons_of_ne_nil (by simp) a d,
      getLastD_eq_getElem_gen (b :: m) d (by simp)]
    simp only [List.length_cons, Nat.add_sub_cancel]
    rw [List.getElem_cons_succ]

theorem getD_eq_getElem_gen {α : Type} (l : List α) (n : Nat) (d : α)
    (h : n < l.length) : l.getD n d = l[n] := by
  rw [List.getD_eq_getElem?_getD, List.getElem?_eq_getElem h]
  rfl

/-- C5: a query exactly equal to a stored sample time returns the stored
pose at that index. -/
theorem sample_q_exact_time (T : Traj) (j : Nat)
    (hlen : T.q.length = T.t.length)
    (hlen7 : ∀ p ∈ T.q, p.length = 7)
    (hj : j < T.t.length)
    (hmono : List.Pairwise (· < ·) T.t) :
    sample_q T (T.t.getD j 0) = T.q.getD j [] := by
  have he : T.t.getD j 0 = T.t[j] := getD_eq_getElem_gen _ _ _ hj
  have hqj : j < T.q.length := by omega
  by_cases hj0 : j = 0
  · subst hj0
    have hcond : T.t.getD 0 0 ≤ T.t.headD 0 := by
      rw [headD_eq_getElem_gen _ _ (by omega), he]
    rw [sample_q, if_pos hcond, headD_eq_getElem_gen _ _ (by omega),
      getD_eq_getElem_gen _ _ _ hqj]
  · have hj_pos : 0 < j := Nat.pos_of_ne_zero hj0
    have hcond1 : ¬ (T.t.getD j 0 ≤ T.t.headD 0) := by
      rw [headD_eq_getElem_gen _ _ (by omega), he]
      push_neg
      exact (List.pairwise_iff_getElem.1 hmono) 0 j _ hj hj_pos
    by_cases hjlast : j = T.t.length - 1
    · subst hjlast
      have hcond2 : T.t.getLastD 0 ≤ T.t.getD (T.t.length - 1) 0 := by
        rw [getLastD_eq_getElem_gen _ _ (by omega), he]
      rw [sample_q, if_neg hcond1, if_pos hcond2,
        getLastD_eq_getElem_gen _ _ (by omega), getD_eq_getElem_gen _ _ _ hqj]
      congr 1
      omega
    · have hj1 : j + 1 < T.t.length := by omega
      have hcond2 : ¬ (T.t.getLastD 0 ≤ T.t.getD j 0) := by
        rw [getLastD_eq_getElem_gen _ _ (by omega), he]
        push_neg
        exact (List.pairwise_iff_getElem.1 hmono) j (T.t.length - 1) _ (by omega)
          (by omega)
      have hb : bisect_left T.t (T.t.getD j 0) = j := by
        apply bisect_left_eq
        · intro k hk
          refine ⟨T.t[k], List.getElem?_eq_getElem (by omega), ?_⟩
          rw [he]
          exact (List.pairwise_iff_getElem.1 hmono) k j _ hj hk
        · refine ⟨T.t[j], List.getElem?_eq_getElem hj, ?_⟩
          rw [he]
          exact lt_irrefl _
      simp only [sample_q]
      rw [if_neg hcond1, if_neg hcond2, hb]
      by_cases hdeg : T.t.getD j 0 ≤ T.t.getD (j - 1) 0 + eps12
      · rw [if_pos hdeg]
      · rw [if_neg hdeg]
        have hne : T.t.getD j 0 - T.t.getD (j - 1) 0 ≠ 0 := by
          push_neg at hdeg
          have := eps12_pos
          intro h2
          rw [sub_eq_zero] at h2
          rw [h2] at hdeg
          linarith
        rw [div_self hne]
        apply zipWith_eq_right _ (fun a b => by ring)
        have h1 : (T.q.getD (j - 1) []).length = 7 := by
          rw [getD_eq_getElem_gen _ _ _ (show j - 1 < T.q.length by omega)]
          exact hlen7 _ (List.getElem_mem _)
        have h2 : (T.q.getD j []).length = 7 := by
          rw [getD_eq_getElem_gen _ _ _ hqj]
          exact hlen7 _ (List.getElem_mem _)
        rw [h1, h2]

/-- Witness for the C5 exact-time theorem at a concrete trajectory. -/
theorem sample_q_exact_time_witness :
    ([List.replicate 7 (4 : ℚ), List.replicate 7 5, List.replicate 7 6].length =
      ([0, 1, 2] : List ℚ).length) ∧
    (∀ p ∈ [List.replicate 7 (4 : ℚ), List.replicate 7 5, List.replicate 7 6],
      p.length = 7) ∧
    List.Pairwise (· < ·) ([0, 1, 2] : List ℚ) ∧
    sample_q
        { t := [0, 1, 2],
          q := [List.replicate 7 4, List.replicate 7 5, List.replicate 7 6] } 1 =
      List.replicate 7 5 := by
  have hlen : ([List.replicate 7 (4 : ℚ), List.replicate 7 5,
      List.replicate 7 6].length = ([0, 1, 2] : List ℚ).length) := by simp
  have hlen7 : ∀ p ∈ [List.replicate 7 (4 : ℚ), List.replicate 7 5,
      List.replicate 7 6], p.length = 7 := by simp
  have hmono : List.Pairwise (· < ·) ([0, 1, 2] : List ℚ) := by
    norm_num [List.pairwise_cons]
  have happ := sample_q_exact_time
    { t := [0, 1, 2],
      q := [List.replicate 7 4, List.replicate 7 5, List.replicate 7 6] } 1
    hlen hlen7 (by simp) hmono
  exact ⟨hlen, hlen7, hmono, by simpa using happ⟩

/-- C4 (amended): the absolute scrub time is
`t_min + fraction * max(t_max - t_min, 1e-9)`, which equals the claimed
`t_min + fraction * (t_max - t_min)` whenever the union range spans at
least `1e-9`; the no-trajectory fallback range is `(0, 1)`; and the
two-trajectory example with spans `[0,1]` and `[2,3]` yields union range
`(0,3)`, absolute time `1.5` at fraction `0.5`, clamping arm A to its last
pose and arm B to its first pose. -/
theorem scrub_time_formula (st : ReplayState) (f : ℚ)
    (hdur : eps9 ≤ (global_time_range st).2 - (global_time_range st).1) :
    scrub_time st f =
      (global_time_range st).1 +
        f * ((global_time_range st).2 - (global_time_range st).1) ∧
    (st.trajA = none → st.trajB = none → global_time_range st = (0, 1)) ∧
    global_time_range
        { trajA := some { t := [0, 1], q := [List.replicate 7 1, List.replicate 7 2] },
          trajB := some { t := [2, 3], q := [List.replicate 7 5, List.replicate 7 6] } } =
      (0, 3) ∧
    scrub_time
        { trajA := some { t := [0, 1], q := [List.replicate 7 1, List.replicate 7 2] },
          trajB := some { t := [2, 3], q := [List.replicate 7 5, List.replicate 7 6] } }
        (mkRat 1 2) = mkRat 3 2 ∧
    apply_pose_from_scrub
        { trajA := some { t := [0, 1], q := [List.replicate 7 1, List.replicate 7 2] },
          trajB := some { t := [2, 3], q := [List.replicate 7 5, List.replicate 7 6] } }
        (mkRat 1 2) = (some (List.replicate 7 2), some (List.replicate 7 5)) := by
  have hr : global_time_range
      { trajA := some { t := [0, 1], q := [List.replicate 7 1, List.replicate 7 2] },
        trajB := some { t := [2, 3], q := [List.replicate 7 5, List.replicate 7 6] } } =
      (0, 3) := by
    norm_num [global_time_range]
  have hst : scrub_time
      { trajA := some { t := [0, 1], q := [List.replicate 7 1, List.replicate 7 2] },
        trajB := some { t := [2, 3], q := [List.replicate 7 5, List.replicate 7 6] } }
      (mkRat 1 2) = mkRat 3 2 := by
    rw [scrub_time, hr]
    rw [show ((0, 3) : ℚ × ℚ).2 - ((0, 3) : ℚ × ℚ).1 = 3 by norm_num]
    rw [max_eq_left (by norm_num [eps9])]
    norm_num
  refine ⟨?_, ?_, hr, hst, ?_⟩
  · rw [scrub_time, max_eq_left hdur]
  · intro ha hb
    rw [global_time_range, ha, hb]
  · rw [apply_pose_from_scrub, hst]
    norm_num [sample_q, Prod.ext_iff]

/-- C4 counterexample: a single loaded one-sample trajectory has union
range `(0, 0)`, and at fraction `1` the computed absolute time is `1e-9`
(the clamped minimum duration), not the claimed `t_min + 1 * (t_max -
t_min) = 0`. -/
theorem scrub_time_counterexample :
    global_time_range
        { trajA := some { t := [0], q := [List.replicate 7 1] }, trajB := none } =
      (0, 0) ∧
    scrub_time
        { trajA := some { t := [0], q := [List.replicate 7 1] }, trajB := none }
        1 = eps9 ∧
    eps9 ≠ (0 : ℚ) + 1 * ((0 : ℚ) - 0) := by
  have hr : global_time_range
      { trajA := some { t := [0], q := [List.replicate 7 1] }, trajB := none } =
      (0, 0) := by
    norm_num [global_time_range]
  refine ⟨hr, ?_, by norm_num [eps9]⟩
  rw [scrub_time, hr]
  rw [show ((0, 0) : ℚ × ℚ).2 - ((0, 0) : ℚ × ℚ).1 = 0 by norm_num]
  rw [max_eq_right (le_of_lt eps9_pos)]
  norm_num

/-- Witness for the amended C4 theorem at the two-trajectory example. -/
theorem scrub_time_formula_witness :
    eps9 ≤
      (global_time_range
        { trajA := some { t := [0, 1], q := [List.replicate 7 1, List.replicate 7 2] },
          trajB := some { t := [2, 3], q := [List.replicate 7 5, List.replicate 7 6] } }).2 -
      (global_time_range
        { trajA := some { t := [0, 1], q := [List.replicate 7 1, List.replicate 7 2] },
          trajB := some { t := [2, 3], q := [List.replicate 7 5, List.replicate 7 6] } }).1 ∧
    scrub_time
        { trajA := some { t := [0, 1], q := [List.replicate 7 1, List.replicate 7 2] },
          trajB := some { t := [2, 3], q := [List.replicate 7 5, List.replicate 7 6] } }
        (mkRat 1 2) = mkRat 3 2 := by
  have hdur : eps9 ≤
      (global_time_range
        { trajA := some { t := [0, 1], q := [List.replicate 7 1, List.replicate 7 2] },
          trajB := some { t := [2, 3], q := [List.replicate 7 5, List.replicate 7 6] } }).2 -
      (global_time_range
        { trajA := some { t := [0, 1], q := [List.replicate 7 1, List.replicate 7 2] },
          trajB := some { t := [2, 3], q := [List.replicate 7 5, List.replicate 7 6] } }).1 := by
    norm_num [global_time_range, eps9]
  exact ⟨hdur, (scrub_time_formula _ (mkRat 1 2) hdur).2.2.2.1⟩

/-- C7: when the parse fails, both load operators cancel and leave both
trajectory slots exactly as they were. -/
theorem load_execute_atomic (tums hdr degrees : Bool) (radians : ℚ → ℚ)
    (lines : List FileLine) (st : ReplayState) (e : ParseErr)
    (herr : parse_single_arm tums hdr degrees radians lines = Except.error e) :
    load_a_execute tums hdr degrees radians lines st = (st, OpStatus.cancelled) ∧
    load_b_execute tums hdr degrees radians lines st = (st, OpStatus.cancelled) := by
  rw [load_a_execute, load_b_execute, herr]
  exact ⟨rfl, rfl⟩

/-- Witness for the C7 atomicity theorem: a 14-field row fails the parse
and a load attempt leaves a previously loaded state untouched. -/
theorem load_execute_atomic_witness :
    parse_single_arm false false false id [numRow (List.replicate 14 0)] =
      Except.error (ParseErr.fieldCount 14) ∧
    load_a_execute false false false id [numRow (List.replicate 14 0)]
        { trajA := some { t := [0], q := [List.replicate 7 1] }, trajB := none } =
      ({ trajA := some { t := [0], q := [List.replicate 7 1] }, trajB := none },
        OpStatus.cancelled) := by
  have herr : parse_single_arm false false false id [numRow (List.replicate 14 0)] =
      Except.error (ParseErr.fieldCount 14) := by
    norm_num [parse_single_arm, collectRows, toVals, numRow, List.replicate]
  exact ⟨herr,
    (load_execute_atomic false false false id _ _ _ herr).1⟩

theorem collectRows_spec (tums degrees : Bool) (radians : ℚ → ℚ) :
    ∀ (lines : List FileLine) (hdr : Bool),
      ((∃ rows, collectRows tums hdr degrees radians lines = Except.ok rows) ↔
        ∀ L ∈ dataLines hdr lines, validLine L = true) ∧
      (∀ rows, collectRows tums hdr degrees radians lines = Except.ok rows →
        rows.length = (dataLines hdr lines).length) ∧
      (∀ s, collectRows tums hdr degrees radians lines =
          Except.error (ParseErr.nonNumericLine s) →
        ∃ L ∈ dataLines hdr lines, L.raw = s ∧ toVals L.tokens = none) ∧
      (∀ n, collectRows tums hdr degrees radians lines =
          Except.error (ParseErr.fieldCount n) →
        n < 15 ∧ ∃ L ∈ dataLines hdr lines,
          (toVals L.tokens).map List.length = some n) ∧
      collectRows tums hdr degrees radians lines ≠ Except.error ParseErr.noRows
  | [], hdr => by
    refine ⟨?_, ?_, ?_, ?_, ?_⟩
    · simp [collectRows, dataLines]
    · intro rows h
      rw [collectRows] at h
      simp only [Except.ok.injEq] at h
      subst h
      simp [dataLines]
    · intro s h
      rw [collectRows] at h
      exact absurd h (by simp)
    · intro n h
      rw [collectRows] at h
      exact absurd h (by simp)
    · rw [collectRows]
      simp
  | L :: rest, hdr => by
    rw [show collectRows tums hdr degrees radians (L :: rest) =
        (if L.blank || L.comment then collectRows tums hdr degrees radians rest
        else if hdr then collectRows tums false degrees radians rest
        else match toVals L.tokens with
          | none => Except.error (ParseErr.nonNumericLine L.raw)
          | some vals =>
            if vals.length < 15 then Except.error (ParseErr.fieldCount vals.length)
            else (collectRows tums hdr degrees radians rest).map
              (fun tail => rowOf tums degrees radians vals :: tail)) from by
      rw [collectRows],
      show dataLines hdr (L :: rest) =
        (if L.blank || L.comment then dataLines hdr rest
        else if hdr then dataLines false rest
        else L :: dataLines hdr rest) from by rw [dataLines]]
    by_cases hskip : (L.blank || L.comment) = true
    · rw [if_pos hskip, if_pos hskip]
      exact collectRows_spec tums degrees radians rest hdr
    · rw [if_neg hskip, if_neg hskip]
      by_cases hh : hdr = true
      · rw [if_pos hh, if_pos hh]
        exact collectRows_spec tums degrees radians rest false
      · rw [if_neg hh, if_neg hh]
        obtain ⟨ihiff, ihlen, ihnn, ihfc, ihnr⟩ :=
          collectRows_spec tums degrees radians rest hdr
        cases htv : toVals L.tokens with
        | none =>
          dsimp only
          refine ⟨?_, ?_, ?_, ?_, ?_⟩
          · constructor
            · rintro ⟨rows, h⟩
              exact absurd h (by simp)
            · intro hall
              have := hall L (List.mem_cons_self _ _)
              rw [validLine, htv] at this
              exact absurd this (by simp)
          · intro rows h
            exact absurd h (by simp)
          · intro s h
            simp only [Except.error.injEq, ParseErr.nonNumericLine.injEq] at h
            exact ⟨L, List.mem_cons_self _ _, h, htv⟩
          · intro n h
            simp only [Except.error.injEq] at h
            exact absurd h (by simp)
          · intro h
            simp only [Except.error.injEq] at h
            exact absurd h (by simp)
        | some vals =>
          dsimp only
          by_cases hlen : vals.length < 15
          · rw [if_pos hlen]
            refine ⟨?_, ?_, ?_, ?_, ?_⟩
            · constructor
              · rintro ⟨rows, h⟩
                exact absurd h (by simp)
              · intro hall
                have := hall L (List.mem_cons_self _ _)
                rw [validLine, htv] at this
                simp only [decide_eq_true_eq] at this
                omega
            · intro rows h
              exact absurd h (by simp)
            · intro s h
              simp only [Except.error.injEq] at h
              exact absurd h (by simp)
            · intro n h
              simp only [Except.error.injEq, ParseErr.fieldCount.injEq] at h
              subst h
              exact ⟨hlen, L, List.mem_cons_self _ _, by rw [htv]; rfl⟩
            · intro h
              simp only [Except.error.injEq] at h
              exact absurd h (by simp)
          · rw [if_neg hlen]
            cases hrec : collectRows tums hdr degrees radians rest with
            | error e =>
              rw [hrec] at ihiff ihlen ihnn ihfc ihnr
              refine ⟨?_, ?_, ?_, ?_, ?_⟩
              · constructor
                · rintro ⟨rows, h⟩
                  exact absurd h (by simp [Except.map])
                · intro hall
                  have htail : ∀ L2 ∈ dataLines hdr rest, validLine L2 = true :=
                    fun L2 hL2 => hall L2 (List.mem_cons_of_mem _ hL2)
                  obtain ⟨rows, hrows⟩ := ihiff.2 htail
                  exact absurd hrows (by simp)
              · intro rows h
                exact absurd h (by simp [Except.map])
              · intro s h
                simp only [Except.map, Except.error.injEq] at h
                subst h
                obtain ⟨L2, hL2, hraw, htv2⟩ := ihnn _ rfl
                exact ⟨L2, List.mem_cons_of_mem _ hL2, hraw, htv2⟩
              · intro n h
                simp only [Except.map, Except.error.injEq] at h
                subst h
                obtain ⟨hn, L2, hL2, hmap⟩ := ihfc _ rfl
                exact ⟨hn, L2, List.mem_cons_of_mem _ hL2, hmap⟩
              · intro h
                simp only [Except.map, Except.error.injEq] at h
                exact ihnr (by rw [h])
            | ok tailrows =>
              rw [hrec] at ihiff ihlen
              refine ⟨?_, ?_, ?_, ?_, ?_⟩
              · constructor
                · intro _
                  intro L2 hL2
                  rcases List.mem_cons.1 hL2 with rfl | hL2t
                  · rw [validLine, htv]
                    simp only [decide_eq_true_eq]
                    omega
                  · exact (ihiff.1 ⟨tailrows, rfl⟩) L2 hL2t
                · intro _
                  exact ⟨rowOf tums degrees radians vals :: tailrows, rfl⟩
              · intro rows h
                simp only [Except.map, Except.ok.injEq] at h
                subst h
                simp only [List.length_cons, ihlen tailrows rfl]
              · intro s h
                exact absurd h (by simp [Except.map])
              · intro n h
                exact absurd h (by simp [Except.map])
              · intro h
                exact absurd h (by simp [Except.map])

/-- C6: `parse_single_arm` fails exactly when some data line has a
non-numeric token, some data line has fewer than 15 numeric fields, or no
data line remains after blank/comment stripping and the header skip; the
non-numeric error names the offending line, the field-count error reports
the actual count, and the no-rows error occurs exactly on empty data. -/
theorem parse_single_arm_failure_iff (tums hdr degrees : Bool)
    (radians : ℚ → ℚ) (lines : List FileLine) :
    ((∃ tr, parse_single_arm tums hdr degrees radians lines = Except.ok tr) ↔
      (dataLines hdr lines ≠ [] ∧
        ∀ L ∈ dataLines hdr lines, validLine L = true)) ∧
    (∀ s, parse_single_arm tums hdr degrees radians lines =
        Except.error (ParseErr.nonNumericLine s) →
      ∃ L ∈ dataLines hdr lines, L.raw = s ∧ toVals L.tokens = none) ∧
    (∀ n, parse_single_arm tums hdr degrees radians lines =
        Except.error (ParseErr.fieldCount n) →
      n < 15 ∧ ∃ L ∈ dataLines hdr lines,
        (toVals L.tokens).map List.length = some n) ∧
    (parse_single_arm tums hdr degrees radians lines =
        Except.error ParseErr.noRows ↔ dataLines hdr lines = []) := by
  obtain ⟨hiff, hlen, hnn, hfc, hnr⟩ := collectRows_spec tums degrees radians lines hdr
  cases hrec : collectRows tums hdr degrees radians lines with
  | error e =>
    rw [hrec] at hiff hlen hnn hfc hnr
    have hp : parse_single_arm tums hdr degrees radians lines = Except.error e := by
      rw [parse_single_arm, hrec]
    refine ⟨?_, ?_, ?_, ?_⟩
    · constructor
      · rintro ⟨tr, h⟩
        rw [hp] at h
        exact absurd h (by simp)
      · rintro ⟨hne, hall⟩
        obtain ⟨rows, hrows⟩ := hiff.2 hall
        exact absurd hrows (by simp)
    · intro s h
      rw [hp] at h
      simp only [Except.error.injEq] at h
      exact hnn s (by rw [h])
    · intro n h
      rw [hp] at h
      simp only [Except.error.injEq] at h
      exact hfc n (by rw [h])
    · constructor
      · intro h
        rw [hp] at h
        simp only [Except.error.injEq] at h
        exact (hnr (by rw [h])).elim
      · intro hD
        have hall : ∀ L ∈ dataLines hdr lines, validLine L = true := by
          rw [hD]
          simp
        obtain ⟨rows, hrows⟩ := hiff.2 hall
        exact absurd hrows (by simp)
  | ok rows =>
    rw [hrec] at hiff hlen hnn hfc hnr
    have hall : ∀ L ∈ dataLines hdr lines, validLine L = true := hiff.1 ⟨rows, rfl⟩
    have hlen2 : rows.length = (dataLines hdr lines).length := hlen rows rfl
    have hp : parse_single_arm tums hdr degrees radians lines =
        (if rows.isEmpty then Except.error ParseErr.noRows
          else Except.ok (unzipPairs (dedup (sortByTime rows)))) := by
      rw [parse_single_arm, hrec]
    by_cases hemp : rows.isEmpty
    · rw [if_pos hemp] at hp
      have hDnil : dataLines hdr lines = [] := by
        have hrnil : rows = [] := List.isEmpty_iff.1 hemp
        rw [hrnil] at hlen2
        exact List.length_eq_zero.1 hlen2.symm
      refine ⟨?_, ?_, ?_, ?_⟩
      · constructor
        · rintro ⟨tr, h⟩
          rw [hp] at h
          exact absurd h (by simp)
        · rintro ⟨hne, _⟩
          exact absurd hDnil hne
      · intro s h
        rw [hp] at h
        exact absurd h (by simp)
      · intro n h
        rw [hp] at h
        exact absurd h (by simp)
      · exact ⟨fun _ => hDnil, fun _ => hp⟩
    · rw [if_neg hemp] at hp
      have hDne : dataLines hdr lines ≠ [] := by
        intro hD
        rw [hD] at hlen2
        simp only [List.length_nil] at hlen2
        rw [List.length_eq_zero.1 hlen2] at hemp
        exact hemp rfl
      refine ⟨?_, ?_, ?_, ?_⟩
      · exact iff_of_true ⟨_, hp⟩ ⟨hDne, hall⟩
      · intro s h
        rw [hp] at h
        exact absurd h (by simp)
      · intro n h
        rw [hp] at h
        exact absurd h (by simp)
      · constructor
        · intro h
          rw [hp] at h
          exact absurd h (by simp)
        · intro hD
          exact absurd hD hDne

/-- Witness for the C6 characterization at a concrete one-row input. -/
theorem parse_single_arm_failure_iff_witness :
    (dataLines false [sampleRow 0 1] ≠ [] ∧
      ∀ L ∈ dataLines false [sampleRow 0 1], validLine L = true) ∧
    (∃ tr, parse_single_arm false false false id [sampleRow 0 1] =
      Except.ok tr) := by
  have hcond : dataLines false [sampleRow 0 1] ≠ [] ∧
      ∀ L ∈ dataLines false [sampleRow 0 1], validLine L = true := by
    constructor
    · decide
    · decide
  exact ⟨hcond,
    (parse_single_arm_failure_iff false false false id [sampleRow 0 1]).1.2 hcond⟩

theorem tcpRows_ok_map :
    ∀ (lines : List FileLine) (hdr cm : Bool) (yo : ℚ) (pts : List (ℚ × ℚ × ℚ)),
      tcpRows hdr cm yo lines = Except.ok pts →
      pts = (dataLines hdr lines).map (fun L => tcp_row_point cm yo (lineVals L))
  | [], hdr, cm, yo, pts, h => by
    rw [tcpRows] at h
    simp only [Except.ok.injEq] at h
    rw [← h, dataLines]
    rfl
  | L :: rest, hdr, cm, yo, pts, h => by
    rw [tcpRows] at h
    rw [dataLines]
    by_cases hskip : (L.blank || L.comment) = true
    · rw [if_pos hskip] at h
      rw [if_pos hskip]
      exact tcpRows_ok_map rest hdr cm yo pts h
    · rw [if_neg hskip] at h
      rw [if_neg hskip]
      by_cases hh : hdr = true
      · rw [if_pos hh] at h
        rw [if_pos hh]
        exact tcpRows_ok_map rest false cm yo pts h
      · rw [if_neg hh] at h
        rw [if_neg hh]
        cases htv : toVals L.tokens with
        | none =>
          rw [htv] at h
          exact absurd h (by simp)
        | some vals =>
          rw [htv] at h
          dsimp only at h
          by_cases hlen : vals.length < 17
          · rw [if_pos hlen] at h
            exact absurd h (by simp)
          · rw [if_neg hlen] at h
            cases hrec : tcpRows hdr cm yo rest with
            | error e =>
              rw [hrec] at h
              exact absurd h (by simp [Except.map])
            | ok tail =>
              rw [hrec] at h
              simp only [Except.map, Except.ok.injEq] at h
              rw [← h, List.map_cons]
              have htail := tcpRows_ok_map rest hdr cm yo tail hrec
              rw [← htail]
              have hlv : lineVals L = vals := by
                rw [lineVals, htv]
                rfl
              rw [hlv]

theorem parse_tcp_positions_ok (hdr cm : Bool) (yo : ℚ) (lines : List FileLine)
    (pts : List (ℚ × ℚ × ℚ))
    (h : parse_tcp_positions hdr cm yo lines = Except.ok pts) :
    tcpRows hdr cm yo lines = Except.ok pts := by
  rw [parse_tcp_positions] at h
  cases hrec : tcpRows hdr cm yo lines with
  | error e =>
    rw [hrec] at h
    exact absurd h (by simp)
  | ok pts0 =>
    rw [hrec] at h
    dsimp only at h
    by_cases hemp : pts0.isEmpty
    · rw [if_pos hemp] at h
      exact absurd h (by simp)
    · rw [if_neg hemp] at h
      exact h

/-- C8 (amended): every point scattered by the TCP visualize operators is
the translation component of the row's flattened 4x4 transform with the
per-arm y offset added: `+0.281` for arm A and `-0.281` for arm B, at
offsets (3,7,11) in row-major mode and (12,13,14) in column-major mode,
with the downsampling step applied when `tcp_step > 1`. -/
theorem tcp_visualize_points_spec (hdr cm : Bool) (step : Nat)
    (lines : List FileLine) :
    (∀ pts, tcp_visualize_a_points hdr cm step lines = Except.ok pts →
      pts = (if 1 < step then sliceStep step else id)
        ((dataLines hdr lines).map
          (fun L => tcp_row_point cm (mkRat 281 1000) (lineVals L)))) ∧
    (∀ pts, tcp_visualize_b_points hdr cm step lines = Except.ok pts →
      pts = (if 1 < step then sliceStep step else id)
        ((dataLines hdr lines).map
          (fun L => tcp_row_point cm (-(mkRat 281 1000)) (lineVals L)))) ∧
    (∀ (vals : List ℚ) (yo : ℚ),
      tcp_row_point false yo vals =
        (((vals.drop 1).take 16).getD 3 0,
          ((vals.drop 1).take 16).getD 7 0 + yo,
          ((vals.drop 1).take 16).getD 11 0) ∧
      tcp_row_point true yo vals =
        (((vals.drop 1).take 16).getD 12 0,
          ((vals.drop 1).take 16).getD 13 0 + yo,
          ((vals.drop 1).take 16).getD 14 0)) := by
  refine ⟨?_, ?_, ?_⟩
  · intro pts h
    rw [tcp_visualize_a_points] at h
    cases hpp : parse_tcp_positions hdr cm (mkRat 281 1000) lines with
    | error e =>
      rw [hpp] at h
      exact absurd h (by simp)
    | ok pts0 =>
      rw [hpp] at h
      dsimp only at h
      have hmap := tcpRows_ok_map lines hdr cm (mkRat 281 1000) pts0
        (parse_tcp_positions_ok hdr cm _ lines pts0 hpp)
      simp only [Except.ok.injEq] at h
      rw [← h, hmap]
      by_cases hstep : 1 < step
      · rw [if_pos hstep, if_pos hstep]
      · rw [if_neg hstep, if_neg hstep]
        rfl
  · intro pts h
    rw [tcp_visualize_b_points] at h
    cases hpp : parse_tcp_positions hdr cm (-(mkRat 281 1000)) lines with
    | error e =>
      rw [hpp] at h
      exact absurd h (by simp)
    | ok pts0 =>
      rw [hpp] at h
      dsimp only at h
      have hmap := tcpRows_ok_map lines hdr cm (-(mkRat 281 1000)) pts0
        (parse_tcp_positions_ok hdr cm _ lines pts0 hpp)
      simp only [Except.ok.injEq] at h
      rw [← h, hmap]
      by_cases hstep : 1 < step
      · rw [if_pos hstep, if_pos hstep]
      · rw [if_neg hstep, if_neg hstep]
        rfl
  · intro vals yo
    constructor
    · rw [tcp_row_point]
      simp
    · rw [tcp_row_point]
      simp

/-- C8 counterexample: for a 17-field row in row-major mode, the arm-A
visualize operator produces `(m[3], m[7] + 0.281, m[11])` — the y
component is offset by `0.281`, so the point is not exactly the
translation `(m[3], m[7], m[11])`. -/
theorem tcp_point_counterexample :
    tcp_visualize_a_points false false 1
        [numRow [0, 100, 101, 102, 103, 104, 105, 106, 107, 108, 109, 110,
          111, 112, 113, 114, 115]] =
      Except.ok [(103, 107 + mkRat 281 1000, 111)] ∧
    (107 + mkRat 281 1000 : ℚ) ≠ 107 := by
  refine ⟨?_, by norm_num⟩
  norm_num [tcp_visualize_a_points, parse_tcp_positions, tcpRows,
    tcp_row_point, toVals, numRow, Except.map]

/-- Witness for the amended C8 theorem at a concrete one-row input. -/
theorem tcp_visualize_points_spec_witness :
    tcp_visualize_a_points false false 1
        [numRow [0, 100, 101, 102, 103, 104, 105, 106, 107, 108, 109, 110,
          111, 112, 113, 114, 115]] =
      Except.ok [(103, 107 + mkRat 281 1000, 111)] ∧
    [((103 : ℚ), 107 + mkRat 281 1000, (111 : ℚ))] =
      (if 1 < 1 then sliceStep 1 else id)
        ((dataLines false
          [numRow [0, 100, 101, 102, 103, 104, 105, 106, 107, 108, 109, 110,
            111, 112, 113, 114, 115]]).map
          (fun L => tcp_row_point false (mkRat 281 1000) (lineVals L))) := by
  have hok : tcp_visualize_a_points false false 1
      [numRow [0, 100, 101, 102, 103, 104, 105, 106, 107, 108, 109, 110,
        111, 112, 113, 114, 115]] =
      Except.ok [(103, 107 + mkRat 281 1000, 111)] := by
    norm_num [tcp_visualize_a_points, parse_tcp_positions, tcpRows,
      tcp_row_point, toVals, numRow, Except.map]
  exact ⟨hok,
    (tcp_visualize_points_spec false false 1 _).1 _ hok⟩

/-- C10: `_unique_name` always returns a name outside the taken set, and
returns the base name itself whenever the base is not taken; consequently
the object name chosen by `_spawn_cube_unique` for a newly created cube
is distinct from every object name existing before its creation. -/
theorem unique_name_spec (base : String) (existing : List String) :
    _unique_name base existing ∉ existing ∧
    (base ∉ existing → _unique_name base existing = base) ∧
    spawn_cube_object_name base existing ∉ existing := by
  by_cases hb : base ∈ existing
  · rw [spawn_cube_object_name, _unique_name, if_pos hb]
    exact ⟨Nat.find_spec (unique_suffix_exists base existing),
      fun h => absurd hb h,
      Nat.find_spec (unique_suffix_exists base existing)⟩
  · rw [spawn_cube_object_name, _unique_name, if_neg hb]
    exact ⟨hb, fun _ => rfl, hb⟩

/-- Witness for the C10 theorem at concrete names. -/
theorem unique_name_spec_witness :
    ("cube" ∉ ["box"]) ∧ _unique_name "cube" ["box"] = "cube" :=
  ⟨by decide, (unique_name_spec "cube" ["box"]).2.1 (by decide)⟩

/-- The entry the importer recovers for one exported object: the sanitised
name, and the `:.6f`-rounded position, quaternion and size. -/
def entryOf (o : SceneObj) : SceneEntry :=
  { name := sanitizeName o.name
    pos := [round6 o.px, round6 o.py, round6 o.pz]
    quat_xyzw := [round6 o.qx, round6 o.qy, round6 o.qz, round6 o.qw]
    shape := "box"
    size := [round6 o.sx, round6 o.sy, round6 o.sz] }

theorem parseBlocks_exportBlocks :
    ∀ (os : List SceneObj), (∀ o ∈ os, sanitizeName o.name ≠ "") →
      parseBlocks ((os.map exportBlock).flatten ++ [constLine none "."]) =
        Except.ok (os.map entryOf)
  | [], _ => by
    simp only [List.map_nil, List.flatten_nil, List.nil_append]
    rw [parseBlocks]
    simp only [constLine]
    rw [parseBlocks]
  | o :: os, h => by
    have hnm : sanitizeName o.name ≠ "" := h o (List.mem_cons_self _ _)
    have ih := parseBlocks_exportBlocks os
      (fun o2 ho2 => h o2 (List.mem_cons_of_mem _ ho2))
    simp only [List.map_cons, List.flatten_cons, exportBlock, List.cons_append,
      List.append_assoc]
    rw [parseBlocks]
    simp only [starLine, if_neg hnm]
    rw [show parse_floats (numLine3 o.px o.py o.pz) 3 =
        Except.ok [round6 o.px, round6 o.py, round6 o.pz] from rfl,
      show parse_floats (numLine4 o.qx o.qy o.qz o.qw) 4 =
        Except.ok [round6 o.qx, round6 o.qy, round6 o.qz, round6 o.qw] from rfl,
      show parse_floats (numLine3 o.sx o.sy o.sz) 3 =
        Except.ok [round6 o.sx, round6 o.sy, round6 o.sz] from rfl]
    simp only [List.nil_append]
    rw [ih]
    simp only [Except.map, entryOf, constLine]

theorem exportBlock_blank (o : SceneObj) : ∀ L ∈ exportBlock o, L.blank = false := by
  intro L hL
  simp only [exportBlock, List.mem_cons, List.not_mem_nil, or_false] at hL
  rcases hL with rfl | rfl | rfl | rfl | rfl | rfl | rfl | rfl | rfl | rfl <;> rfl

theorem perm_insertByName (x : SceneObj) (l : List SceneObj) :
    (insertByName x l).Perm (x :: l) := by
  induction l with
  | nil => simp [insertByName]
  | cons y ys ih =>
    by_cases hy : y.name.toLower < x.name.toLower
    · rw [insertByName, if_pos hy]
      exact (ih.cons y).trans (List.Perm.swap x y ys)
    · rw [insertByName, if_neg hy]

theorem perm_sortByName (l : List SceneObj) : (sortByName l).Perm l := by
  induction l with
  | nil => simp [sortByName]
  | cons x xs ih => exact (perm_insertByName x (sortByName xs)).trans (ih.cons x)

theorem abs_round6_sub_le (x : ℚ) : |round6 x - x| ≤ mkRat 1 1000000 := by
  have h := abs_sub_round (x * 1000000)
  rw [abs_sub_comm] at h
  have hrw : round6 x - x = ((round (x * 1000000) : ℤ) - x * 1000000) / 1000000 := by
    rw [round6]
    ring
  rw [hrw, abs_div]
  rw [show |(1000000 : ℚ)| = 1000000 by norm_num]
  rw [div_le_iff₀ (by norm_num)]
  rw [show (mkRat 1 1000000 : ℚ) * 1000000 = 1 by norm_num]
  linarith

/-- C9: exporting a non-empty selection and re-importing the produced text
yields exactly one `"box"` entry per object (in the exporter's
name-sorted order, a permutation of the originals), whose position,
quaternion and size are the `:.6f`-rounded originals — each within
`1e-6` of the original value. -/
theorem scene_round_trip (objs : List SceneObj) (lines : List SLine)
    (hnames : ∀ o ∈ objs, sanitizeName o.name ≠ "")
    (hexp : export_scene objs = Except.ok lines) :
    parse_scene_file lines = Except.ok ((sortByName objs).map entryOf) ∧
    (sortByName objs).Perm objs ∧
    (∀ es, parse_scene_file lines = Except.ok es → es.length = objs.length) ∧
    (∀ e ∈ (sortByName objs).map entryOf, e.shape = "box") ∧
    (∀ x : ℚ, |round6 x - x| ≤ mkRat 1 1000000) := by
  rw [export_scene] at hexp
  by_cases hemp : objs.isEmpty
  · rw [if_pos hemp] at hexp
    exact absurd hexp (by simp)
  · rw [if_neg hemp] at hexp
    have hlines : lines = constLine none "(noname)+" ::
        ((sortByName objs).map exportBlock).flatten ++ [constLine none "."] :=
      (Except.ok.inj hexp).symm
    subst hlines
    have hperm := perm_sortByName objs
    have hnames2 : ∀ o ∈ sortByName objs, sanitizeName o.name ≠ "" :=
      fun o ho => hnames o (hperm.mem_iff.1 ho)
    have hnb : ∀ L ∈ (constLine none "(noname)+" ::
        ((sortByName objs).map exportBlock).flatten ++ [constLine none "."]),
        (!L.blank) = true := by
      intro L hL
      rcases List.mem_cons.1 hL with rfl | hL2
      · rfl
      · rcases List.mem_append.1 hL2 with hL3 | hL4
        · obtain ⟨blk, hblk, hLblk⟩ := List.mem_flatten.1 hL3
          obtain ⟨o, _, rfl⟩ := List.mem_map.1 hblk
          rw [exportBlock_blank o L hLblk]
          rfl
        · simp only [List.mem_singleton] at hL4
          subst hL4
          rfl
    have hparse : parse_scene_file (constLine none "(noname)+" ::
        ((sortByName objs).map exportBlock).flatten ++ [constLine none "."]) =
        Except.ok ((sortByName objs).map entryOf) := by
      rw [parse_scene_file, List.filter_eq_self.2 hnb]
      exact parseBlocks_exportBlocks (sortByName objs) hnames2
    refine ⟨hparse, hperm, ?_, ?_, fun x => abs_round6_sub_le x⟩
    · intro es hes
      rw [hparse] at hes
      have hes2 := Except.ok.inj hes
      rw [← hes2, List.length_map]
      exact hperm.length_eq
    · intro e he
      obtain ⟨o, _, rfl⟩ := List.mem_map.1 he
      rfl

/-- A concrete object for the round-trip witness. -/
def cubeObj : SceneObj :=
  { name := "Cube", px := 1, py := 2, pz := 3, qx := 0, qy := 0, qz := 0,
    qw := 1, sx := 1, sy := 1, sz := 1 }

/-- Witness for the C9 round-trip theorem at a concrete one-object
selection. -/
theorem scene_round_trip_witness :
    (∀ o ∈ [cubeObj], sanitizeName o.name ≠ "") ∧
    (∃ lines,
      export_scene [cubeObj] = Except.ok lines ∧
      parse_scene_file lines =
        Except.ok ((sortByName [cubeObj]).map entryOf)) := by
  have hn : ∀ o ∈ [cubeObj], sanitizeName o.name ≠ "" := by
    intro o ho
    simp only [List.mem_singleton] at ho
    subst ho
    decide
  have hexp : export_scene [cubeObj] =
      Except.ok (constLine none "(noname)+" ::
        ((sortByName [cubeObj]).map exportBlock).flatten ++
          [constLine none "."]) := rfl
  exact ⟨hn, _, hexp, (scene_round_trip _ _ hn hexp).1⟩

/-- An object whose name is a single space: legal in the host editor, but
its sanitised name is empty. -/
def blankNameObj : SceneObj :=
  { name := " ", px := 1, py := 2, pz := 3, qx := 0, qy := 0, qz := 0,
    qw := 1, sx := 1, sy := 1, sz := 1 }

/-- C9 counterexample: one object whose name strips to the empty string
exports the marker line `"* "`, which strips to `"*"` and is no longer an
entry marker, so the importer drops the whole block: one exported object
re-imports as zero entries. -/
theorem scene_round_trip_counterexample :
    export_scene [blankNameObj] =
      Except.ok (constLine none "(noname)+" ::
        ((sortByName [blankNameObj]).map exportBlock).flatten ++
          [constLine none "."]) ∧
    parse_scene_file (constLine none "(noname)+" ::
        ((sortByName [blankNameObj]).map exportBlock).flatten ++
          [constLine none "."]) =
      Except.ok ([] : List SceneEntry) ∧
    ([] : List SceneEntry).length ≠ [blankNameObj].length := by
  refine ⟨rfl, ?_, by simp⟩
  rfl
